import Mathlib

/-!
Verification of the cryptographic core of the kaspa-wallet repository:
the address codec (`src/lib/address.ts`) and the transaction signing
engine (`src/lib/transaction.ts`-style module).

Modelling conventions for the shallow embedding of the TypeScript code:

* JavaScript strings are modelled as `List Nat` of UTF-16 code units.
  All strings manipulated by the codec core are ASCII, where code units
  coincide with code points.
* `Uint8Array` values are modelled as `List Nat`; the element coercion
  performed by a `Uint8Array` constructor (values are taken mod 256) is
  written explicitly where the source relies on it.
* JavaScript `number` amounts that the source immediately converts with
  `BigInt(...)` (which throws on non-integral input) are modelled as `Int`.
* Functions that `throw` are modelled in the `Except` monad, with one
  error constructor per distinct thrown message.
* JavaScript 32-bit truncation in `convertBits`'s accumulator is not
  reproduced: the code only ever reads the low `bits < 16` bits of the
  accumulator (via `>> bits` and `& mask` with `bits + to ≤ 16 < 32`),
  so an unbounded accumulator yields identical observable values.
* In `polymod`, the `c1 < 0` sign fix-up of the source reinterprets the
  signed 32-bit value as unsigned; `c1` is modelled directly as an
  unsigned value `< 2^32`, on which the fix-up is the identity.
-/

namespace KaspaWallet

/-! ### Bit-arithmetic toolbox -/

theorem xor_mod_two_pow (a b k : Nat) :
    (a ^^^ b) % 2 ^ k = (a % 2 ^ k) ^^^ (b % 2 ^ k) := by
  apply Nat.eq_of_testBit_eq
  intro i
  simp only [Nat.testBit_mod_two_pow, Nat.testBit_xor]
  by_cases h : i < k <;> simp [h]

theorem xor_div_two_pow (a b k : Nat) :
    (a ^^^ b) / 2 ^ k = (a / 2 ^ k) ^^^ (b / 2 ^ k) := by
  induction k with
  | zero => simp
  | succ k ih =>
    rw [Nat.pow_succ, ← Nat.div_div_eq_div_mul, ← Nat.div_div_eq_div_mul,
      ← Nat.div_div_eq_div_mul, ih, Nat.xor_div_two]

theorem xor_mul_two_pow (a b k : Nat) :
    (a ^^^ b) * 2 ^ k = (a * 2 ^ k) ^^^ (b * 2 ^ k) := by
  apply Nat.eq_of_testBit_eq
  intro i
  rw [Nat.mul_comm (a ^^^ b), Nat.mul_comm a, Nat.mul_comm b]
  simp only [Nat.testBit_mul_pow_two, Nat.testBit_xor]
  by_cases h : i ≥ k <;> simp [h]

theorem mul_pow_add_eq_xor (a : Nat) {b k : Nat} (hb : b < 2 ^ k) :
    2 ^ k * a + b = (2 ^ k * a) ^^^ b := by
  rw [Nat.mul_add_lt_is_or hb]
  apply Nat.eq_of_testBit_eq
  intro i
  simp only [Nat.testBit_or, Nat.testBit_xor]
  rcases Nat.lt_or_ge i k with h | h
  · have : (2 ^ k * a).testBit i = false := by
      rw [Nat.testBit_mul_pow_two]
      simp [Nat.not_le.mpr h]
    simp [this]
  · have : b.testBit i = false :=
      Nat.testBit_lt_two_pow (lt_of_lt_of_le hb (Nat.pow_le_pow_right (by omega) h))
    simp [this]

theorem mod_two_pow_mul_add {b k : Nat} (a : Nat) (hb : b < 2 ^ k) :
    (2 ^ k * a + b) % 2 ^ k = b := by
  rw [Nat.mul_add_mod, Nat.mod_eq_of_lt hb]

theorem div_two_pow_mul_add {b k : Nat} (a : Nat) (hb : b < 2 ^ k) :
    (2 ^ k * a + b) / 2 ^ k = a := by
  rw [Nat.mul_add_div (Nat.two_pow_pos k), Nat.div_eq_of_lt hb]
  simp

/-! ### Address codec: data and constants

Translated from `src/lib/address.ts`. -/

/-- The 32-character base32 alphabet `'qpzry9x8gf2tvdw0s3jn54khce6mua7l'`,
as ASCII code units. -/
def CHARSET : List Nat :=
  [113, 112, 122, 114, 121, 57, 120, 56,
   103, 102, 50, 116, 118, 100, 119, 48,
   115, 51, 106, 110, 53, 52, 107, 104,
   99, 101, 54, 109, 117, 97, 55, 108]

/-- `CHARSET_INVERSE_INDEX`, as an association list from ASCII code to
5-bit value. -/
def CHARSET_INVERSE_INDEX : List (Nat × Nat) :=
  [(113, 0), (112, 1), (122, 2), (114, 3), (121, 4), (57, 5), (120, 6), (56, 7),
   (103, 8), (102, 9), (50, 10), (116, 11), (118, 12), (100, 13), (119, 14), (48, 15),
   (115, 16), (51, 17), (106, 18), (110, 19), (53, 20), (52, 21), (107, 22), (104, 23),
   (99, 24), (101, 25), (54, 26), (109, 27), (117, 28), (97, 29), (55, 30), (108, 31)]

def GENERATOR1 : List Nat := [0x98, 0x79, 0xf3, 0xae, 0x1e]

def GENERATOR2 : List Nat :=
  [0xf2bc8e61, 0xb76d99e2, 0x3e5fb3c4, 0x2eabe2a8, 0x4f43e470]

/-- `DEFAULT_ALLOWED_PREFIXES = ['kaspa', 'kaspatest', 'kaspadev', 'kaspasim']`
as code-unit lists. -/
def DEFAULT_ALLOWED_PREFIXES : List (List Nat) :=
  [[107, 97, 115, 112, 97],
   [107, 97, 115, 112, 97, 116, 101, 115, 116],
   [107, 97, 115, 112, 97, 100, 101, 118],
   [107, 97, 115, 112, 97, 115, 105, 109]]

/-- Error taxonomy of the codec; one constructor per thrown message in
`address.ts` (`assertValid` / `throw new Error`). -/
inductive AddrError where
  | mixedCase          -- 'Mixed case address'
  | invalidFormat      -- 'Invalid address format: ...'
  | unknownPrefix      -- 'Invalid address prefix: ...'
  | invalidCharacter   -- base32Decode: 'Invalid value: <char>.'
  | invalidChecksum    -- 'Invalid checksum: ...'
  | valueOutOfRange    -- convertBits/base32Encode: 'Invalid value: <n>.'
  | invalidPadding     -- convertBits strict-mode assertion
  | emptyPayload       -- 'Address payload is empty'
  | invalidKeyLength   -- 'Invalid Schnorr/ECDSA public key length'
  | invalidHashLength  -- 'Invalid script hash length'
  | unsupportedVersion -- 'Unsupported address version: ...'
  deriving DecidableEq, Repr

/-- JS `String.prototype.toLowerCase` restricted to ASCII code units. -/
def toLowerStr (s : List Nat) : List Nat :=
  s.map fun c => if 65 ≤ c ∧ c ≤ 90 then c + 32 else c

/-- JS `String.prototype.toUpperCase` restricted to ASCII code units. -/
def toUpperStr (s : List Nat) : List Nat :=
  s.map fun c => if 97 ≤ c ∧ c ≤ 122 then c - 32 else c

/-- `hasSingleCase`: the string equals its own lower-casing or its own
upper-casing. -/
def hasSingleCase (s : List Nat) : Bool :=
  s = toLowerStr s ∨ s = toUpperStr s

/-- JS `String.prototype.split` with a single-code-unit separator. -/
def jsSplit (sep : Nat) : List Nat → List (List Nat)
  | [] => [[]]
  | c :: rest =>
    if c = sep then [] :: jsSplit sep rest
    else
      match jsSplit sep rest with
      | [] => [[c]]
      | g :: gs => (c :: g) :: gs

/-! ### convertBits -/

/-- The inner `while (bits >= to)` emission loop of `convertBits`,
in closed form: the loop runs `bits / to` times, the `j`-th iteration
emitting `(accumulator >> (bits - (j+1)·to)) & mask`, and leaves
`bits % to` bits.  (Written without recursion so that it evaluates by
kernel reduction; the lemmas `emitAll_low`, `emitAll_one` and
`emitAll_two` recover the loop-step reading.) -/
def emitAll (toW acc bits : Nat) : List Nat × Nat :=
  if 0 < toW then
    ((List.range (bits / toW)).map fun j =>
        (acc >>> (bits - (j + 1) * toW)) &&& (2 ^ toW - 1),
      bits % toW)
  else ([], bits)

/-- The main loop of `convertBits`: fold a value in, emit full groups,
recurse.  Fails (`assertValid`) if a value does not fit in `from` bits. -/
def cbLoop (fr toW : Nat) :
    List Nat → Nat → Nat → Except AddrError (List Nat × Nat × Nat)
  | [], acc, bits => .ok ([], acc, bits)
  | v :: rest, acc, bits =>
    if v >>> fr = 0 then
      let acc' := (acc <<< fr) ||| v
      let step := emitAll toW acc' (bits + fr)
      match cbLoop fr toW rest acc' step.2 with
      | .ok (out, a, b) => .ok (step.1 ++ out, a, b)
      | .error e => .error e
    else .error .valueOutOfRange

/-- `convertBits(data, from, to, strictMode)`. -/
def convertBits (data : List Nat) (fr toW : Nat) (strict : Bool) :
    Except AddrError (List Nat) :=
  match cbLoop fr toW data 0 0 with
  | .error e => .error e
  | .ok (out, acc, bits) =>
    if strict then
      if bits < fr ∧ (acc <<< (toW - bits)) &&& (2 ^ toW - 1) = 0 then .ok out
      else .error .invalidPadding
    else
      if 0 < bits then .ok (out ++ [(acc <<< (toW - bits)) &&& (2 ^ toW - 1)])
      else .ok out

/-! ### base32 / pfx helpers -/

def base32Encode : List Nat → Except AddrError (List Nat)
  | [] => .ok []
  | v :: rest =>
    if v < 32 then
      match base32Encode rest with
      | .ok out => .ok (CHARSET.getD v 0 :: out)
      | .error e => .error e
    else .error .valueOutOfRange

def base32Decode : List Nat → Except AddrError (List Nat)
  | [] => .ok []
  | ch :: rest =>
    match CHARSET_INVERSE_INDEX.lookup ch with
    | some v =>
      match base32Decode rest with
      | .ok out => .ok (v :: out)
      | .error e => .error e
    | none => .error .invalidCharacter

/-- `prefixToArray`: each character's code unit masked to its low 5 bits. -/
def prefixToArray (pfx : List Nat) : List Nat :=
  pfx.map fun c => c &&& 31

/-- `checksumToArray`: the eight base-32 digits of the 40-bit checksum,
most significant first.  (The source pushes `checksum & 31` and divides
by 32 eight times, then reverses; the fractional JS division feeds a
`ToInt32` truncation, so digit `i` is `⌊checksum / 32^i⌋ mod 32`.) -/
def checksumToArray (checksum : Nat) : List Nat :=
  (((List.range 8).map fun i => checksum / 32 ^ i % 32)).reverse

/-! ### polymod -/

/-- The generator-correction loop body of `polymod`: for each `i < 5`,
if bit `i` of `c` is set, XOR `GENERATOR1[i]` into `c0` and
`GENERATOR2[i]` into `c1`. -/
def applyGen (c : Nat) (st : Nat × Nat) : Nat × Nat :=
  (List.range GENERATOR1.length).foldl
    (fun p i =>
      if c &&& (1 <<< i) ≠ 0 then
        (p.1 ^^^ GENERATOR1.getD i 0, p.2 ^^^ GENERATOR2.getD i 0)
      else p)
    st

/-- One iteration of the `polymod` data loop on the `(c0, c1)` state. -/
def polymodStep (st : Nat × Nat) (v : Nat) : Nat × Nat :=
  let c := st.1 >>> 3
  let c0 := ((st.1 &&& 0x07) <<< 5) ||| (st.2 >>> 27)
  let c1 := ((st.2 &&& 0x07ffffff) <<< 5) ^^^ v
  applyGen c (c0, c1)

/-- `polymod(data)`: fold the step over the data from `(c0, c1) = (0, 1)`,
XOR 1 into `c1`, and combine the halves into the 40-bit result
`c0 * 2^32 + c1`.  (The source's `c1 < 0` branch converts the signed
32-bit value to unsigned, which is the identity here.) -/
def polymod (data : List Nat) : Nat :=
  let st := data.foldl polymodStep (0, 1)
  st.1 * (1 <<< 30) * 4 + (st.2 ^^^ 1)

/-- `hasValidChecksum(pfx, payload)`. -/
def hasValidChecksum (pfx : List Nat) (payload : List Nat) : Bool :=
  polymod (prefixToArray pfx ++ [0] ++ payload) = 0

/-! ### normalize / decode / encode -/

/-- `normalizeAddress`: reject mixed case, lower-case, split on `':'`,
require exactly two pieces. -/
def normalizeAddress (address : List Nat) :
    Except AddrError (List Nat × List Nat) :=
  if hasSingleCase address then
    let pieces := jsSplit 58 (toLowerStr address)
    match pieces with
    | [p, e] => .ok (p, e)
    | _ => .error .invalidFormat
  else .error .mixedCase

structure DecodedKaspaAddress where
  pfx : List Nat
  version : Nat
  payload : List Nat
  deriving DecidableEq, Repr

deriving instance DecidableEq for Except

/-- `decodeKaspaAddress(address, allowedPrefixes)`. -/
def decodeKaspaAddress (address : List Nat)
    (allowedPrefixes : List (List Nat) := DEFAULT_ALLOWED_PREFIXES) :
    Except AddrError DecodedKaspaAddress := do
  let (pfx, encodedPayload) ← normalizeAddress address
  let normalizedPrefixes := allowedPrefixes.map toLowerStr
  if normalizedPrefixes.contains pfx then
    let decoded ← base32Decode encodedPayload
    if hasValidChecksum pfx decoded then
      let converted ← convertBits (decoded.take (decoded.length - 8)) 5 8 true
      match converted with
      | [] => .error .emptyPayload
      | version :: payload => .ok ⟨pfx, version, payload⟩
    else .error .invalidChecksum
  else .error .unknownPrefix

/-- `encodeKaspaAddress(payload, pfx, version)`.  The
`new Uint8Array([version, ...payload])` coercion reduces each element
mod 256. -/
def encodeKaspaAddress (payload : List Nat) (pfx : List Nat)
    (version : Nat := 0) : Except AddrError (List Nat) := do
  let normalizedPrefix := toLowerStr pfx
  let prefixData := prefixToArray normalizedPrefix ++ [0]
  let payloadData ← convertBits ((version :: payload).map (· % 256)) 8 5 false
  let checksumInput := prefixData ++ payloadData ++ List.replicate 8 0
  let checksum := checksumToArray (polymod checksumInput)
  let fullPayload := payloadData ++ checksum
  let encoded ← base32Encode fullPayload
  .ok (normalizedPrefix ++ [58] ++ encoded)

/-- `addressToScriptPublicKey(address, allowedPrefixes)`: decode and
dispatch on the version byte. -/
def addressToScriptPublicKey (address : List Nat)
    (allowedPrefixes : List (List Nat) := DEFAULT_ALLOWED_PREFIXES) :
    Except AddrError (List Nat) := do
  let decoded ← decodeKaspaAddress address allowedPrefixes
  match decoded.version with
  | 0x00 =>
    if decoded.payload.length = 32 then
      .ok (0x20 :: decoded.payload ++ [0xac])
    else .error .invalidKeyLength
  | 0x01 =>
    if decoded.payload.length = 33 then
      .ok (0x21 :: decoded.payload ++ [0xab])
    else .error .invalidKeyLength
  | 0x08 =>
    if decoded.payload.length = 32 then
      .ok (0xaa :: 0x20 :: decoded.payload ++ [0x87])
    else .error .invalidHashLength
  | _ => .error .unsupportedVersion

/-! ### String and split lemmas -/

theorem toLowerStr_append (a b : List Nat) :
    toLowerStr (a ++ b) = toLowerStr a ++ toLowerStr b :=
  List.map_append ..

/-- A code unit outside `'A'..'Z'` is fixed by lower-casing. -/
theorem toLowerStr_fixed {s : List Nat} (h : ∀ c ∈ s, ¬(65 ≤ c ∧ c ≤ 90)) :
    toLowerStr s = s := by
  unfold toLowerStr
  conv_rhs => rw [← List.map_id s]
  apply List.map_congr_left
  intro c hc
  simp [h c hc]

theorem toLowerStr_idem (s : List Nat) :
    toLowerStr (toLowerStr s) = toLowerStr s := by
  apply toLowerStr_fixed
  intro c hc
  unfold toLowerStr at hc
  obtain ⟨d, _, rfl⟩ := List.mem_map.mp hc
  by_cases h : 65 ≤ d ∧ d ≤ 90 <;> simp [h] <;> omega

theorem hasSingleCase_of_lower {s : List Nat} (h : toLowerStr s = s) :
    hasSingleCase s = true := by
  unfold hasSingleCase
  rw [h]
  simp

/-- Lower-casing never produces a `':'` (58) that was not already there. -/
theorem toLowerStr_mem_58 {s : List Nat} (h : 58 ∉ s) : 58 ∉ toLowerStr s := by
  unfold toLowerStr
  intro hmem
  obtain ⟨d, hd, he⟩ := List.mem_map.mp hmem
  by_cases hr : 65 ≤ d ∧ d ≤ 90
  · simp only [hr, and_self, if_true] at he
    omega
  · simp only [hr, if_false] at he
    exact h (he ▸ hd)

theorem jsSplit_nil (sep : Nat) : jsSplit sep [] = [[]] := rfl

theorem jsSplit_cons (sep c : Nat) (rest : List Nat) :
    jsSplit sep (c :: rest) =
      if c = sep then [] :: jsSplit sep rest
      else
        match jsSplit sep rest with
        | [] => [[c]]
        | g :: gs => (c :: g) :: gs := rfl

theorem jsSplit_ne_nil (sep : Nat) (s : List Nat) : jsSplit sep s ≠ [] := by
  cases s with
  | nil => simp [jsSplit_nil]
  | cons c rest =>
    rw [jsSplit_cons]
    by_cases h : c = sep
    · simp [h]
    · simp only [h, if_false]
      cases jsSplit sep rest <;> simp

theorem jsSplit_no_sep {sep : Nat} {s : List Nat} (h : sep ∉ s) :
    jsSplit sep s = [s] := by
  induction s with
  | nil => rfl
  | cons c rest ih =>
    have hc : c ≠ sep := fun he => h (he ▸ List.mem_cons_self c rest)
    have hr : sep ∉ rest := fun hm => h (List.mem_cons_of_mem c hm)
    rw [jsSplit_cons, ih hr]
    simp [hc]

theorem jsSplit_append {sep : Nat} {a : List Nat} (b : List Nat)
    (h : sep ∉ a) : jsSplit sep (a ++ sep :: b) = a :: jsSplit sep b := by
  induction a with
  | nil => simp [jsSplit_cons]
  | cons c rest ih =>
    have hc : c ≠ sep := fun he => h (he ▸ List.mem_cons_self c rest)
    have hr : sep ∉ rest := fun hm => h (List.mem_cons_of_mem c hm)
    rw [List.cons_append, jsSplit_cons, ih hr]
    simp [hc]

theorem jsSplit_length (sep : Nat) (s : List Nat) :
    (jsSplit sep s).length = s.count sep + 1 := by
  induction s with
  | nil => rfl
  | cons c rest ih =>
    rw [jsSplit_cons]
    by_cases h : c = sep
    · simp [h, List.count_cons, ih]
    · simp only [h, if_false]
      rcases hr : jsSplit sep rest with _ | ⟨g, gs⟩
      · exact absurd hr (jsSplit_ne_nil sep rest)
      · have := ih
        rw [hr] at this
        simp only [List.length_cons] at this ⊢
        rw [List.count_cons]
        simp [h, ← this]

/-! ### base32 lemmas -/

theorem charset_lookup : ∀ v < 32,
    CHARSET_INVERSE_INDEX.lookup (CHARSET.getD v 0) = some v := by
  decide

theorem charset_getD_mem : ∀ v < 32, CHARSET.getD v 0 ∈ CHARSET := by
  decide

theorem charset_lower : ∀ c ∈ CHARSET, ¬(65 ≤ c ∧ c ≤ 90) := by
  decide

theorem charset_ne_58 : ∀ c ∈ CHARSET, c ≠ 58 := by
  decide

theorem base32Encode_ok {data : List Nat} (h : ∀ v ∈ data, v < 32) :
    base32Encode data = .ok (data.map fun v => CHARSET.getD v 0) := by
  induction data with
  | nil => rfl
  | cons v rest ih =>
    have hv : v < 32 := h v (List.mem_cons_self v rest)
    have hr := ih fun x hx => h x (List.mem_cons_of_mem v hx)
    simp [base32Encode, hv, hr]

theorem base32Decode_encode {data : List Nat} (h : ∀ v ∈ data, v < 32) :
    base32Decode (data.map fun v => CHARSET.getD v 0) = .ok data := by
  induction data with
  | nil => rfl
  | cons v rest ih =>
    have hv : v < 32 := h v (List.mem_cons_self v rest)
    have hr := ih fun x hx => h x (List.mem_cons_of_mem v hx)
    simp only [base32Decode, List.map_cons]
    rw [charset_lookup v hv, hr]

/-! ### polymod: algebraic structure of the BCH checksum

The key fact is that appending the eight checksum symbols of
`polymod (data ++ 0⁸)` to `data` drives `polymod` to exactly `0`.  The
proof tracks how an XOR-difference on the `(c0, c1)` state propagates
through the step function: symbols injected into the low 5 bits of `c1`
shift left by 5 per step and never reach the generator-reduction window
within the 8 checksum steps. -/

theorem or_eq_xor {x y : Nat} (h : x &&& y = 0) : x ||| y = x ^^^ y := by
  apply Nat.eq_of_testBit_eq
  intro i
  have hb : (x &&& y).testBit i = false := by rw [h]; simp
  rw [Nat.testBit_and] at hb
  rw [Nat.testBit_or, Nat.testBit_xor]
  cases hx : x.testBit i <;> cases hy : y.testBit i <;> simp_all

theorem shl_and_eq_zero {y : Nat} (z : Nat) (h : y < 2 ^ 5) :
    (z <<< 5) &&& y = 0 := by
  apply Nat.eq_of_testBit_eq
  intro i
  rw [Nat.testBit_and, Nat.testBit_shiftLeft]
  rcases Nat.lt_or_ge i 5 with hi | hi
  · simp [Nat.not_le.mpr hi]
  · have : y.testBit i = false :=
      Nat.testBit_lt_two_pow (lt_of_lt_of_le h (Nat.pow_le_pow_right (by omega) hi))
    simp [this]

theorem applyGen_shift (c a b x y : Nat) :
    applyGen c (a ^^^ x, b ^^^ y) =
      ((applyGen c (a, b)).1 ^^^ x, (applyGen c (a, b)).2 ^^^ y) := by
  unfold applyGen
  generalize List.range GENERATOR1.length = l
  induction l generalizing a b with
  | nil => simp
  | cons i l ih =>
    simp only [List.foldl_cons]
    by_cases h : c &&& (1 <<< i) ≠ 0
    · rw [if_pos h, if_pos h]
      have e1 : a ^^^ x ^^^ GENERATOR1.getD i 0 = (a ^^^ GENERATOR1.getD i 0) ^^^ x := by
        ac_rfl
      have e2 : b ^^^ y ^^^ GENERATOR2.getD i 0 = (b ^^^ GENERATOR2.getD i 0) ^^^ y := by
        ac_rfl
      rw [e1, e2, ih]
    · rw [if_neg h, if_neg h]
      exact ih a b

theorem generator1_getD_lt (i : Nat) : GENERATOR1.getD i 0 < 2 ^ 8 := by
  match i with
  | 0 | 1 | 2 | 3 | 4 => decide
  | n + 5 => simp [GENERATOR1, List.getD]

theorem generator2_getD_lt (i : Nat) : GENERATOR2.getD i 0 < 2 ^ 32 := by
  match i with
  | 0 | 1 | 2 | 3 | 4 => decide
  | n + 5 => simp [GENERATOR2, List.getD]

theorem applyGen_fst_lt (c : Nat) :
    ∀ a b : Nat, a < 2 ^ 8 → (applyGen c (a, b)).1 < 2 ^ 8 := by
  unfold applyGen
  generalize List.range GENERATOR1.length = l
  induction l with
  | nil => intro a b ha; exact ha
  | cons i l ih =>
    intro a b ha
    simp only [List.foldl_cons]
    by_cases h : c &&& (1 <<< i) ≠ 0
    · rw [if_pos h]
      exact ih _ _ (Nat.xor_lt_two_pow ha (generator1_getD_lt i))
    · rw [if_neg h]
      exact ih _ _ ha

theorem applyGen_snd_lt (c : Nat) :
    ∀ a b : Nat, b < 2 ^ 32 → (applyGen c (a, b)).2 < 2 ^ 32 := by
  unfold applyGen
  generalize List.range GENERATOR1.length = l
  induction l with
  | nil => intro a b hb; exact hb
  | cons i l ih =>
    intro a b hb
    simp only [List.foldl_cons]
    by_cases h : c &&& (1 <<< i) ≠ 0
    · rw [if_pos h]
      exact ih _ _ (Nat.xor_lt_two_pow hb (generator2_getD_lt i))
    · rw [if_neg h]
      exact ih _ _ hb

theorem polymodStep_fst_lt {b v : Nat} (a : Nat) (hb : b < 2 ^ 32) :
    (polymodStep (a, b) v).1 < 2 ^ 8 := by
  unfold polymodStep
  dsimp only
  apply applyGen_fst_lt
  have h1 : (a &&& 0x07) <<< 5 < 2 ^ 8 := by
    have : a &&& 0x07 < 2 ^ 3 := Nat.and_lt_two_pow a (by norm_num)
    rw [Nat.shiftLeft_eq]
    omega
  have h2 : b >>> 27 < 2 ^ 5 := by
    rw [Nat.shiftRight_eq_div_pow]
    omega
  exact Nat.or_lt_two_pow h1 (by omega)

theorem polymodStep_snd_lt {v : Nat} (a b : Nat) (hv : v < 2 ^ 32) :
    (polymodStep (a, b) v).2 < 2 ^ 32 := by
  unfold polymodStep
  dsimp only
  apply applyGen_snd_lt
  apply Nat.xor_lt_two_pow _ hv
  have : b &&& 0x07ffffff < 2 ^ 27 := Nat.and_lt_two_pow b (by norm_num)
  rw [Nat.shiftLeft_eq]
  omega

theorem foldl_polymodStep_snd_lt (ds : List Nat) :
    ∀ a b, (∀ d ∈ ds, d < 2 ^ 32) → b < 2 ^ 32 →
    ((ds.foldl polymodStep (a, b)).2 < 2 ^ 32) := by
  induction ds with
  | nil => intro a b _ hb; exact hb
  | cons d ds ih =>
    intro a b h hb
    rw [List.foldl_cons]
    have hd : d < 2 ^ 32 := h d (List.mem_cons_self d ds)
    have e : polymodStep (a, b) d = ((polymodStep (a, b) d).1, (polymodStep (a, b) d).2) := rfl
    rw [e]
    exact ih _ _ (fun x hx => h x (List.mem_cons_of_mem d hx)) (polymodStep_snd_lt a b hd)

theorem foldl_polymodStep_fst_lt (ds : List Nat) :
    ∀ a b, (∀ d ∈ ds, d < 2 ^ 32) → a < 2 ^ 8 → b < 2 ^ 32 →
    ((ds.foldl polymodStep (a, b)).1 < 2 ^ 8) := by
  induction ds with
  | nil => intro a b _ ha _; exact ha
  | cons d ds ih =>
    intro a b h ha hb
    rw [List.foldl_cons]
    have hd : d < 2 ^ 32 := h d (List.mem_cons_self d ds)
    have e : polymodStep (a, b) d = ((polymodStep (a, b) d).1, (polymodStep (a, b) d).2) := rfl
    rw [e]
    exact ih _ _ (fun x hx => h x (List.mem_cons_of_mem d hx))
      (polymodStep_fst_lt a hb) (polymodStep_snd_lt a b hd)

/-- Propagation of an XOR-difference through one `polymod` step: a
difference `(w0, w1)` on the state with `w0 < 8` shifts left by five
bits and does not disturb the generator reduction. -/
theorem polymodStep_shift {b w0 w1 : Nat} (a v : Nat) (hw0 : w0 < 8)
    (hb : b < 2 ^ 32) (hw1 : w1 < 2 ^ 32) :
    polymodStep (a ^^^ w0, b ^^^ w1) v =
      ((polymodStep (a, b) v).1 ^^^ ((w0 <<< 5) ^^^ (w1 >>> 27)),
       (polymodStep (a, b) v).2 ^^^ ((w1 &&& 0x07ffffff) <<< 5)) := by
  unfold polymodStep
  have hc : (a ^^^ w0) >>> 3 = a >>> 3 := by
    rw [Nat.shiftRight_eq_div_pow, Nat.shiftRight_eq_div_pow, xor_div_two_pow]
    have : w0 / 2 ^ 3 = 0 := Nat.div_eq_of_lt (by omega)
    rw [this, Nat.xor_zero]
  have hand7 : (a ^^^ w0) &&& 0x07 = (a &&& 0x07) ^^^ w0 := by
    rw [Nat.and_xor_distrib_right]
    congr 1
    have : (0x07 : Nat) = 2 ^ 3 - 1 := by norm_num
    rw [this, Nat.and_pow_two_sub_one_eq_mod, Nat.mod_eq_of_lt (by omega)]
  have handm : (b ^^^ w1) &&& 0x07ffffff = (b &&& 0x07ffffff) ^^^ (w1 &&& 0x07ffffff) :=
    Nat.and_xor_distrib_right
  have hshr : (b ^^^ w1) >>> 27 = (b >>> 27) ^^^ (w1 >>> 27) := by
    rw [Nat.shiftRight_eq_div_pow, Nat.shiftRight_eq_div_pow, Nat.shiftRight_eq_div_pow,
      xor_div_two_pow]
  have hb27 : b >>> 27 < 2 ^ 5 := by
    rw [Nat.shiftRight_eq_div_pow]; omega
  have hw27 : w1 >>> 27 < 2 ^ 5 := by
    rw [Nat.shiftRight_eq_div_pow]; omega
  have hxor27 : (b >>> 27) ^^^ (w1 >>> 27) < 2 ^ 5 := Nat.xor_lt_two_pow hb27 hw27
  -- first component: turn `|||` into `^^^`, distribute, regroup
  have hshl : ∀ x y : Nat, (x ^^^ y) <<< 5 = (x <<< 5) ^^^ (y <<< 5) := by
    intro x y
    rw [Nat.shiftLeft_eq, Nat.shiftLeft_eq, Nat.shiftLeft_eq, xor_mul_two_pow]
  have hbw : (b ^^^ w1) >>> 27 < 2 ^ 5 := by
    rw [Nat.shiftRight_eq_div_pow]
    have := Nat.xor_lt_two_pow hb hw1
    omega
  have hfst :
      (((a ^^^ w0) &&& 0x07) <<< 5) ||| ((b ^^^ w1) >>> 27) =
        ((((a &&& 0x07) <<< 5) ||| (b >>> 27)) ^^^ ((w0 <<< 5) ^^^ (w1 >>> 27))) := by
    rw [or_eq_xor (shl_and_eq_zero _ hbw), hand7, hshr, hshl,
      or_eq_xor (shl_and_eq_zero _ hb27)]
    ac_rfl
  have hsnd :
      (((b ^^^ w1) &&& 0x07ffffff) <<< 5) ^^^ v =
        ((((b &&& 0x07ffffff) <<< 5) ^^^ v) ^^^ ((w1 &&& 0x07ffffff) <<< 5)) := by
    rw [handm, hshl]
    ac_rfl
  rw [hc, hfst, hsnd]
  exact applyGen_shift _ _ _ _ _

/-- Injecting a fresh symbol `v` only XORs `v` into the low bits of the
new `c1`. -/
theorem polymodStep_inject (a b v : Nat) :
    polymodStep (a, b) v =
      ((polymodStep (a, b) 0).1, (polymodStep (a, b) 0).2 ^^^ v) := by
  unfold polymodStep
  have e : (((b &&& 0x07ffffff) <<< 5) ^^^ v) =
      ((((b &&& 0x07ffffff) <<< 5) ^^^ 0) ^^^ v) := by
    rw [Nat.xor_zero]
  rw [e]
  have e2 : (((a &&& 0x07) <<< 5) ||| (b >>> 27)) =
      ((((a &&& 0x07) <<< 5) ||| (b >>> 27)) ^^^ 0) := by
    rw [Nat.xor_zero]
  conv_lhs => rw [e2]
  rw [applyGen_shift]
  simp

/-- Base-32 value of a digit string, most significant digit first. -/
def valB (ds : List Nat) : Nat := ds.foldl (fun a d => a * 32 + d) 0

theorem valB_foldl_acc (ds : List Nat) :
    ∀ a, ds.foldl (fun a d => a * 32 + d) a = a * 32 ^ ds.length + valB ds := by
  induction ds with
  | nil => intro a; simp [valB]
  | cons d ds ih =>
    intro a
    rw [List.foldl_cons, ih]
    have hv : valB (d :: ds) = d * 32 ^ ds.length + valB ds := by
      rw [valB, List.foldl_cons, ih]
      simp
    rw [hv, List.length_cons]
    ring

theorem valB_cons (d : Nat) (ds : List Nat) :
    valB (d :: ds) = d * 32 ^ ds.length + valB ds := by
  rw [valB, List.foldl_cons, valB_foldl_acc]
  simp

theorem valB_lt (ds : List Nat) (h : ∀ d ∈ ds, d < 32) :
    valB ds < 32 ^ ds.length := by
  induction ds with
  | nil => simp [valB]
  | cons d ds ih =>
    rw [valB_cons, List.length_cons]
    have hd : d < 32 := h d (List.mem_cons_self d ds)
    have hr : valB ds < 32 ^ ds.length := ih fun x hx => h x (List.mem_cons_of_mem d hx)
    have : d * 32 ^ ds.length + 32 ^ ds.length ≤ 32 * 32 ^ ds.length := by
      have := Nat.succ_le_of_lt hd
      nlinarith
    calc d * 32 ^ ds.length + valB ds < d * 32 ^ ds.length + 32 ^ ds.length := by omega
    _ ≤ 32 * 32 ^ ds.length := this
    _ = 32 ^ (ds.length + 1) := by ring

theorem pow32_eq (n : Nat) : (32 : Nat) ^ n = 2 ^ (5 * n) := by
  rw [show (32 : Nat) = 2 ^ 5 by norm_num, ← pow_mul]

/-- XOR-difference propagation through a run of `polymod` steps: a
difference `w` on the 40-bit state (split into its two halves) becomes
`w * 32^k` after `k` steps, as long as it never leaves the 40-bit
window. -/
theorem foldl_polymodStep_diff (ds : List Nat) :
    ∀ a b w, (∀ d ∈ ds, d < 32) → b < 2 ^ 32 → w * 32 ^ ds.length < 2 ^ 40 →
    ds.foldl polymodStep (a ^^^ (w / 2 ^ 32), b ^^^ (w % 2 ^ 32)) =
      ((ds.foldl polymodStep (a, b)).1 ^^^ (w * 32 ^ ds.length / 2 ^ 32),
       (ds.foldl polymodStep (a, b)).2 ^^^ (w * 32 ^ ds.length % 2 ^ 32)) := by
  induction ds with
  | nil => intro a b w _ _ _; simp
  | cons d ds ih =>
    intro a b w h hb hw
    have hd : d < 32 := h d (List.mem_cons_self d ds)
    have e32 : (2 : Nat) ^ 32 = 4294967296 := by norm_num
    have e40 : (2 : Nat) ^ 40 = 1099511627776 := by norm_num
    have e27 : (2 : Nat) ^ 27 = 134217728 := by norm_num
    have hw' : w * 32 * 32 ^ ds.length < 2 ^ 40 := by
      have : w * 32 ^ (d :: ds).length = w * 32 * 32 ^ ds.length := by
        rw [List.length_cons, pow_succ]
        ring
      omega
    have hw35 : w < 2 ^ 35 := by
      have h1 : 1 ≤ 32 ^ ds.length := Nat.one_le_pow _ _ (by norm_num)
      have h2 : w * 32 ≤ w * 32 * 32 ^ ds.length := Nat.le_mul_of_pos_right _ (by omega)
      have e35 : (2 : Nat) ^ 35 = 34359738368 := by norm_num
      omega
    have e35 : (2 : Nat) ^ 35 = 34359738368 := by norm_num
    have hw0 : w / 2 ^ 32 < 8 := by omega
    have hw1 : w % 2 ^ 32 < 2 ^ 32 := Nat.mod_lt _ (by omega)
    rw [List.foldl_cons, List.foldl_cons,
      polymodStep_shift a d hw0 hb hw1]
    have hq : (w % 2 ^ 32) / 2 ^ 27 < 2 ^ 5 := by
      have e5 : (2 : Nat) ^ 5 = 32 := by norm_num
      omega
    have hδ0 : ((w / 2 ^ 32) <<< 5) ^^^ ((w % 2 ^ 32) >>> 27) = (w * 32) / 2 ^ 32 := by
      rw [Nat.shiftLeft_eq, Nat.shiftRight_eq_div_pow, Nat.mul_comm,
        ← mul_pow_add_eq_xor _ hq]
      have e5 : (2 : Nat) ^ 5 = 32 := by norm_num
      omega
    have hδ1 : ((w % 2 ^ 32) &&& 0x07ffffff) <<< 5 = (w * 32) % 2 ^ 32 := by
      rw [show (0x07ffffff : Nat) = 2 ^ 27 - 1 by norm_num,
        Nat.and_pow_two_sub_one_eq_mod, Nat.shiftLeft_eq]
      have e5 : (2 : Nat) ^ 5 = 32 := by norm_num
      omega
    rw [hδ0, hδ1]
    have hrec := ih (polymodStep (a, b) d).1 (polymodStep (a, b) d).2 (w * 32)
      (fun x hx => h x (List.mem_cons_of_mem d hx))
      (polymodStep_snd_lt a b (by omega)) hw'
    rw [Prod.mk.eta] at hrec
    rw [hrec]
    have hlen : w * 32 * 32 ^ ds.length = w * 32 ^ (d :: ds).length := by
      rw [List.length_cons, pow_succ]
      ring
    rw [hlen]

/-- Running the `polymod` step over symbols `ds` (each `< 32`, at most
eight of them) equals running it over zeros and XOR-ing in the base-32
value of `ds`. -/
theorem foldl_polymodStep_inject (ds : List Nat) :
    ∀ a b, (∀ d ∈ ds, d < 32) → b < 2 ^ 32 → ds.length ≤ 8 →
    ds.foldl polymodStep (a, b) =
      (((List.replicate ds.length 0).foldl polymodStep (a, b)).1 ^^^ (valB ds / 2 ^ 32),
       ((List.replicate ds.length 0).foldl polymodStep (a, b)).2 ^^^ (valB ds % 2 ^ 32)) := by
  induction ds with
  | nil => intro a b _ _ _; simp [valB]
  | cons d ds ih =>
    intro a b h hb hlen
    have hd : d < 32 := h d (List.mem_cons_self d ds)
    have hlen' : ds.length ≤ 7 := by
      rw [List.length_cons] at hlen
      omega
    have e32 : (2 : Nat) ^ 32 = 4294967296 := by norm_num
    rw [List.foldl_cons, polymodStep_inject]
    have e0 : (polymodStep (a, b) 0).1 = (polymodStep (a, b) 0).1 ^^^ (d / 2 ^ 32) := by
      rw [Nat.div_eq_of_lt (by omega), Nat.xor_zero]
    have e1 : (polymodStep (a, b) 0).2 ^^^ d =
        (polymodStep (a, b) 0).2 ^^^ (d % 2 ^ 32) := by
      rw [Nat.mod_eq_of_lt (by omega)]
    rw [e1]
    conv_lhs => rw [e0]
    have hdbound : d * 32 ^ ds.length < 2 ^ 40 := by
      have h1 : (32 : Nat) ^ ds.length ≤ 32 ^ 7 := Nat.pow_le_pow_right (by norm_num) hlen'
      have h2 : d * 32 ^ ds.length ≤ 31 * 32 ^ 7 := by
        calc d * 32 ^ ds.length ≤ 31 * 32 ^ ds.length := by
              exact Nat.mul_le_mul_right _ (by omega)
        _ ≤ 31 * 32 ^ 7 := Nat.mul_le_mul_left _ h1
      have : (31 : Nat) * 32 ^ 7 < 2 ^ 40 := by norm_num
      omega
    rw [foldl_polymodStep_diff ds _ _ d
      (fun x hx => h x (List.mem_cons_of_mem d hx))
      (polymodStep_snd_lt a b (by omega)) hdbound]
    have hrec := ih (polymodStep (a, b) 0).1 (polymodStep (a, b) 0).2
      (fun x hx => h x (List.mem_cons_of_mem d hx))
      (polymodStep_snd_lt a b (by omega))
      (by omega)
    rw [Prod.mk.eta] at hrec
    rw [hrec]
    have hval : valB (d :: ds) = (d * 32 ^ ds.length) ^^^ valB ds := by
      rw [valB_cons]
      have hvb : valB ds < 2 ^ (5 * ds.length) := by
        rw [← pow32_eq]
        exact valB_lt ds fun x hx => h x (List.mem_cons_of_mem d hx)
      rw [show d * 32 ^ ds.length = 2 ^ (5 * ds.length) * d by rw [pow32_eq]; ring,
        mul_pow_add_eq_xor _ hvb]
    have hrep : (List.replicate (d :: ds).length 0).foldl polymodStep (a, b) =
        (List.replicate ds.length 0).foldl polymodStep (polymodStep (a, b) 0) := by
      rw [List.length_cons, List.replicate_succ, List.foldl_cons]
    rw [hrep, hval]
    simp only [Prod.mk.injEq]
    constructor
    · rw [xor_div_two_pow]
      ac_rfl
    · rw [xor_mod_two_pow]
      ac_rfl

theorem checksumToArray_length (c : Nat) : (checksumToArray c).length = 8 := by
  simp [checksumToArray]

theorem checksumToArray_lt (c : Nat) : ∀ d ∈ checksumToArray c, d < 32 := by
  intro d hd
  simp only [checksumToArray, List.mem_reverse, List.mem_map] at hd
  obtain ⟨i, _, rfl⟩ := hd
  exact Nat.mod_lt _ (by norm_num)

/-- Base-32 digit recomposition: `valB` of the digit list produced by
`checksumToArray` recovers the number. -/
theorem valB_digits : ∀ n C, C < 32 ^ n →
    valB (((List.range n).map fun i => C / 32 ^ i % 32).reverse) = C := by
  intro n
  induction n with
  | zero =>
    intro C hC
    interval_cases C
    simp [valB]
  | succ n ih =>
    intro C hC
    rw [List.range_succ, List.map_append, List.reverse_append]
    simp only [List.map_cons, List.map_nil, List.reverse_cons, List.reverse_nil,
      List.nil_append, List.singleton_append]
    have hdig : C / 32 ^ n % 32 = C / 32 ^ n := by
      apply Nat.mod_eq_of_lt
      apply Nat.div_lt_of_lt_mul
      rw [← pow_succ]
      exact hC
    have hmapeq : (List.range n).map (fun i => C / 32 ^ i % 32) =
        (List.range n).map (fun i => (C % 32 ^ n) / 32 ^ i % 32) := by
      apply List.map_congr_left
      intro i hi
      have hin : i < n := List.mem_range.mp hi
      rw [Nat.div_mod_eq_mod_mul_div, Nat.div_mod_eq_mod_mul_div]
      congr 1
      rw [show (32 : Nat) ^ i * 32 = 32 ^ (i + 1) by ring]
      rw [Nat.mod_mod_of_dvd _ (pow_dvd_pow 32 (by omega))]
    rw [valB_cons, hmapeq, ih (C % 32 ^ n) (Nat.mod_lt _ (Nat.pos_pow_of_pos n (by norm_num)))]
    rw [hdig]
    simp only [List.length_reverse, List.length_map, List.length_range]
    exact Nat.div_add_mod' C (32 ^ n)

/-- Appending the checksum symbols computed over `data ++ 0⁸` drives
`polymod` to zero: the algebraic heart of encode/decode consistency. -/
theorem polymod_append_checksum (data : List Nat) (h : ∀ d ∈ data, d < 32) :
    polymod (data ++ checksumToArray (polymod (data ++ List.replicate 8 0))) = 0 := by
  have hd32 : ∀ d ∈ data, d < 2 ^ 32 := fun d hd => lt_trans (h d hd) (by norm_num)
  rcases hS : data.foldl polymodStep (0, 1) with ⟨S1, S2⟩
  have hS2 : S2 < 2 ^ 32 := by
    have := foldl_polymodStep_snd_lt data 0 1 hd32 (by norm_num)
    rw [hS] at this
    exact this
  have hS1 : S1 < 2 ^ 8 := by
    have := foldl_polymodStep_fst_lt data 0 1 hd32 (by norm_num) (by norm_num)
    rw [hS] at this
    exact this
  rcases hZ : (List.replicate 8 (0 : Nat)).foldl polymodStep (S1, S2) with ⟨Z1, Z2⟩
  have hz32 : ∀ d ∈ List.replicate 8 (0 : Nat), d < 2 ^ 32 := by
    intro d hd
    rw [List.eq_of_mem_replicate hd]
    norm_num
  have hZ2 : Z2 < 2 ^ 32 := by
    have := foldl_polymodStep_snd_lt (List.replicate 8 0) S1 S2 hz32 hS2
    rw [hZ] at this
    exact this
  have hZ1 : Z1 < 2 ^ 8 := by
    have := foldl_polymodStep_fst_lt (List.replicate 8 0) S1 S2 hz32 hS1 hS2
    rw [hZ] at this
    exact this
  have hxlt : Z2 ^^^ 1 < 2 ^ 32 := Nat.xor_lt_two_pow hZ2 (by norm_num)
  have hshl30 : (1 : Nat) <<< 30 = 2 ^ 30 := by
    rw [Nat.shiftLeft_eq]
    ring
  have hCval : polymod (data ++ List.replicate 8 0) = 2 ^ 32 * Z1 + (Z2 ^^^ 1) := by
    simp only [polymod]
    rw [List.foldl_append, hS, hZ, hshl30]
    ring_nf
  have hC40 : polymod (data ++ List.replicate 8 0) < 2 ^ 40 := by
    rw [hCval]
    have e8 : (2 : Nat) ^ 8 = 256 := by norm_num
    have e32 : (2 : Nat) ^ 32 = 4294967296 := by norm_num
    have e40 : (2 : Nat) ^ 40 = 1099511627776 := by norm_num
    omega
  have hvb : valB (checksumToArray (polymod (data ++ List.replicate 8 0))) =
      polymod (data ++ List.replicate 8 0) := by
    have e : (32 : Nat) ^ 8 = 2 ^ 40 := by norm_num
    exact valB_digits 8 _ (by omega)
  have hdiv : polymod (data ++ List.replicate 8 0) / 2 ^ 32 = Z1 := by
    rw [hCval]
    exact div_two_pow_mul_add _ hxlt
  have hmod : polymod (data ++ List.replicate 8 0) % 2 ^ 32 = Z2 ^^^ 1 := by
    rw [hCval]
    exact mod_two_pow_mul_add _ hxlt
  rw [hCval] at hvb hdiv hmod
  rw [hCval]
  simp only [polymod]
  rw [List.foldl_append, hS,
    foldl_polymodStep_inject _ S1 S2 (checksumToArray_lt _) hS2
      (le_of_eq (checksumToArray_length _)),
    checksumToArray_length, hZ, hvb, hdiv, hmod]
  dsimp only
  rw [Nat.xor_self, ← Nat.xor_assoc, Nat.xor_self]
  simp

/-! ### convertBits: round-trip machinery -/

theorem shl_or_eq (x : Nat) {v k : Nat} (hv : v < 2 ^ k) :
    (x <<< k) ||| v = 2 ^ k * x + v := by
  rw [Nat.shiftLeft_eq, Nat.mul_comm, Nat.mul_add_lt_is_or hv]

theorem shr_and_mask (x k w : Nat) : (x >>> k) &&& (2 ^ w - 1) = x / 2 ^ k % 2 ^ w := by
  rw [Nat.shiftRight_eq_div_pow, Nat.and_pow_two_sub_one_eq_mod]

theorem emitAll_low {toW acc bits : Nat} (h : bits < toW) :
    emitAll toW acc bits = ([], bits) := by
  rw [emitAll, if_pos (by omega)]
  have hq : bits / toW = 0 := Nat.div_eq_of_lt h
  have hm : bits % toW = bits := Nat.mod_eq_of_lt h
  rw [hq, hm]
  rfl

theorem emitAll_one {toW acc bits : Nat} (h1 : toW ≤ bits) (h2 : bits < 2 * toW)
    (h0 : 0 < toW) :
    emitAll toW acc bits = ([(acc >>> (bits - toW)) &&& (2 ^ toW - 1)], bits - toW) := by
  rw [emitAll, if_pos h0]
  have hq : bits / toW = 1 := Nat.div_eq_of_lt_le (by omega) (by omega)
  have hm : bits % toW = bits - toW := by
    rw [Nat.mod_eq_sub_mod h1, Nat.mod_eq_of_lt (by omega)]
  rw [hq, hm, show List.range 1 = [0] from rfl, List.map_cons, List.map_nil]
  norm_num

theorem emitAll_two {toW acc bits : Nat} (h1 : 2 * toW ≤ bits) (h2 : bits < 3 * toW)
    (h0 : 0 < toW) :
    emitAll toW acc bits =
      ([(acc >>> (bits - toW)) &&& (2 ^ toW - 1),
        (acc >>> (bits - 2 * toW)) &&& (2 ^ toW - 1)], bits - 2 * toW) := by
  rw [emitAll, if_pos h0]
  have hq : bits / toW = 2 := Nat.div_eq_of_lt_le (by omega) (by omega)
  have hm : bits % toW = bits - 2 * toW := by
    rw [Nat.mod_eq_sub_mod (by omega), Nat.mod_eq_sub_mod (by omega),
      Nat.mod_eq_of_lt (by omega)]
    omega
  rw [hq, hm, show List.range 2 = [0, 1] from rfl, List.map_cons, List.map_cons,
    List.map_nil]
  norm_num

/-- Splitting a `cbLoop` run at a list append. -/
theorem cbLoop_append_ok {fr toW : Nat} {ys : List Nat} :
    ∀ {xs : List Nat} {acc bits out a b},
    cbLoop fr toW xs acc bits = .ok (out, a, b) →
    cbLoop fr toW (xs ++ ys) acc bits =
      match cbLoop fr toW ys a b with
      | .ok (out2, a2, b2) => .ok (out ++ out2, a2, b2)
      | .error e => .error e := by
  intro xs
  induction xs with
  | nil =>
    intro acc bits out a b h
    simp only [cbLoop] at h
    cases h
    rw [List.nil_append]
    cases hys : cbLoop fr toW ys acc bits with
    | ok v =>
      obtain ⟨out2, a2, b2⟩ := v
      simp
    | error e => simp
  | cons v xs ih =>
    intro acc bits out a b h
    simp only [cbLoop] at h ⊢
    by_cases hv : v >>> fr = 0
    · simp only [hv, if_true] at h ⊢
      cases hrec : cbLoop fr toW xs ((acc <<< fr) ||| v)
          (emitAll toW ((acc <<< fr) ||| v) (bits + fr)).2 with
      | error e =>
        rw [hrec] at h
        simp at h
      | ok w =>
        obtain ⟨o, a', b'⟩ := w
        rw [hrec] at h
        simp only at h
        cases h
        simp only [List.append_eq]
        rw [ih hrec]
        cases hys : cbLoop fr toW ys a b with
        | ok w2 =>
          obtain ⟨out2, a2, b2⟩ := w2
          simp [List.append_assoc]
        | error e => simp
    · simp only [hv, if_false] at h
      cases h

theorem cbLoop85_cons_ok {v : Nat} {rest : List Nat} {acc b : Nat} {em : List Nat}
    {b2 : Nat} {out : List Nat} {a b3 : Nat} (hv : v < 256)
    (hem : emitAll 5 ((acc <<< 8) ||| v) (b + 8) = (em, b2))
    (hrest : cbLoop 8 5 rest ((acc <<< 8) ||| v) b2 = .ok (out, a, b3)) :
    cbLoop 8 5 (v :: rest) acc b = .ok (em ++ out, a, b3) := by
  have h8 : v >>> 8 = 0 := by
    rw [Nat.shiftRight_eq_div_pow]
    have : (2 : Nat) ^ 8 = 256 := by norm_num
    omega
  simp only [cbLoop, h8, if_true, hem, hrest]

theorem cbLoop58_cons_ok {e : Nat} {rest : List Nat} {acc d : Nat} {em : List Nat}
    {d2 : Nat} {out : List Nat} {a d3 : Nat} (he : e < 32)
    (hem : emitAll 8 ((acc <<< 5) ||| e) (d + 5) = (em, d2))
    (hrest : cbLoop 5 8 rest ((acc <<< 5) ||| e) d2 = .ok (out, a, d3)) :
    cbLoop 5 8 (e :: rest) acc d = .ok (em ++ out, a, d3) := by
  have h5 : e >>> 5 = 0 := by
    rw [Nat.shiftRight_eq_div_pow]
    have : (2 : Nat) ^ 5 = 32 := by norm_num
    omega
  simp only [cbLoop, h5, if_true, hem, hrest]

theorem cbLoop_nil (fr toW acc bits : Nat) :
    cbLoop fr toW [] acc bits = .ok ([], acc, bits) := rfl

/-- The partial byte held jointly by the two `convertBits` states while
bytes stream through an 8→5 conversion followed by a strict 5→8
conversion: the decoder holds the high `d` bits, the encoder the low
`b` bits. -/
def InFlight (accE b accD d : Nat) : List Nat :=
  if b = 0 then [] else [(accD % 2 ^ d) * 2 ^ b + accE % 2 ^ b]

/-- Streaming invariant: piping bytes through the 8→5 conversion and
feeding every emitted 5-bit symbol to the strict 5→8 conversion
reproduces the bytes, up to the partial byte in flight. -/
theorem pipe (bs : List Nat) :
    ∀ accE b accD d,
    (∀ v ∈ bs, v < 256) → b < 5 → d < 8 → (b + d) % 8 = 0 →
    ∃ ss accE' b' out accD' d',
      cbLoop 8 5 bs accE b = .ok (ss, accE', b') ∧
      (∀ s ∈ ss, s < 32) ∧
      cbLoop 5 8 ss accD d = .ok (out, accD', d') ∧
      b' < 5 ∧ d' < 8 ∧ (b' + d') % 8 = 0 ∧
      out ++ InFlight accE' b' accD' d' = InFlight accE b accD d ++ bs := by
  induction bs with
  | nil =>
    intro accE b accD d _ hb hd hbd
    exact ⟨[], accE, b, [], accD, d, rfl, by simp, rfl, hb, hd, hbd, by simp⟩
  | cons v bs ih =>
    intro accE b accD d h hb hd hbd
    have hv : v < 256 := h v (List.mem_cons_self v bs)
    have hbs : ∀ x ∈ bs, x < 256 := fun x hx => h x (List.mem_cons_of_mem v hx)
    have e256 : (2 : Nat) ^ 8 = 256 := by norm_num
    have e32 : (2 : Nat) ^ 5 = 32 := by norm_num
    have hA : (accE <<< 8) ||| v = 256 * accE + v := by
      rw [shl_or_eq accE (show v < 2 ^ 8 by omega), e256]
    interval_cases b
    -- b = 0, d = 0: one symbol out, decoder swallows it (no byte yet)
    · have hd0 : d = 0 := by omega
      subst hd0
      have hem : emitAll 5 ((accE <<< 8) ||| v) (0 + 8) =
          ([((accE <<< 8) ||| v) >>> 3 &&& (2 ^ 5 - 1)], 3) := by
        rw [show (0 + 8 : Nat) = 8 from rfl, emitAll_one (by omega) (by omega) (by omega)]
      obtain ⟨ss, accE', b', out, accD', d', h1, h2, h3, h4, h5, h6, h7⟩ :=
        ih ((accE <<< 8) ||| v) 3 ((accD <<< 5) ||| (((accE <<< 8) ||| v) >>> 3 &&& (2 ^ 5 - 1)))
          5 hbs (by omega) (by omega) (by omega)
      have he1 : ((accE <<< 8) ||| v) >>> 3 &&& (2 ^ 5 - 1) < 32 := by
        rw [shr_and_mask]
        omega
      have hdem : emitAll 8 ((accD <<< 5) ||| (((accE <<< 8) ||| v) >>> 3 &&& (2 ^ 5 - 1)))
          (0 + 5) = ([], 5) := by
        rw [show (0 + 5 : Nat) = 5 from rfl, emitAll_low (by omega)]
      refine ⟨_ ++ ss, accE', b', [] ++ out, accD', d',
        cbLoop85_cons_ok hv hem h1, ?_,
        cbLoop58_cons_ok he1 hdem h3, h4, h5, h6, ?_⟩
      · intro s hs
        rcases List.mem_append.mp hs with hs | hs
        · rcases List.mem_singleton.mp hs with rfl
          exact he1
        · exact h2 s hs
      · have hB : (accD <<< 5) ||| (((accE <<< 8) ||| v) >>> 3 &&& (2 ^ 5 - 1)) =
            32 * accD + (256 * accE + v) / 2 ^ 3 % 2 ^ 5 := by
          rw [shr_and_mask, hA, shl_or_eq accD (by omega), e32]
        rw [List.nil_append, h7, InFlight, InFlight, if_neg (by omega), if_pos rfl,
          hB, hA]
        have e3 : (2 : Nat) ^ 3 = 8 := by norm_num
        rw [e3, e32]
        have hx : (32 * accD + (256 * accE + v) / 8 % 32) % 32 * 8 +
            (256 * accE + v) % 8 = v := by omega
        rw [hx]
        simp
    -- b = 1, d = 7: one symbol out, decoder completes a byte
    · have hd0 : d = 7 := by omega
      subst hd0
      have hem : emitAll 5 ((accE <<< 8) ||| v) (1 + 8) =
          ([((accE <<< 8) ||| v) >>> 4 &&& (2 ^ 5 - 1)], 4) := by
        rw [show (1 + 8 : Nat) = 9 from rfl, emitAll_one (by omega) (by omega) (by omega)]
      obtain ⟨ss, accE', b', out, accD', d', h1, h2, h3, h4, h5, h6, h7⟩ :=
        ih ((accE <<< 8) ||| v) 4
          ((accD <<< 5) ||| (((accE <<< 8) ||| v) >>> 4 &&& (2 ^ 5 - 1)))
          4 hbs (by omega) (by omega) (by omega)
      have he1 : ((accE <<< 8) ||| v) >>> 4 &&& (2 ^ 5 - 1) < 32 := by
        rw [shr_and_mask]
        omega
      have hdem : emitAll 8 ((accD <<< 5) ||| (((accE <<< 8) ||| v) >>> 4 &&& (2 ^ 5 - 1)))
          (7 + 5) =
          ([((accD <<< 5) ||| (((accE <<< 8) ||| v) >>> 4 &&& (2 ^ 5 - 1))) >>> 4 &&&
            (2 ^ 8 - 1)], 4) := by
        rw [show (7 + 5 : Nat) = 12 from rfl, emitAll_one (by omega) (by omega) (by omega)]
      refine ⟨_ ++ ss, accE', b', _ ++ out, accD', d',
        cbLoop85_cons_ok hv hem h1, ?_,
        cbLoop58_cons_ok he1 hdem h3, h4, h5, h6, ?_⟩
      · intro s hs
        rcases List.mem_append.mp hs with hs | hs
        · rcases List.mem_singleton.mp hs with rfl
          exact he1
        · exact h2 s hs
      · have hB : (accD <<< 5) ||| (((accE <<< 8) ||| v) >>> 4 &&& (2 ^ 5 - 1)) =
            32 * accD + (256 * accE + v) / 2 ^ 4 % 2 ^ 5 := by
          rw [shr_and_mask, hA, shl_or_eq accD (by omega), e32]
        have hIFold : InFlight accE 1 accD 7 = [accD % 2 ^ 7 * 2 ^ 1 + accE % 2 ^ 1] := by
          rw [InFlight, if_neg (by omega)]
        have hIFmid : InFlight ((accE <<< 8) ||| v) 4
            ((accD <<< 5) ||| (((accE <<< 8) ||| v) >>> 4 &&& (2 ^ 5 - 1))) 4 =
            [((accD <<< 5) ||| (((accE <<< 8) ||| v) >>> 4 &&& (2 ^ 5 - 1))) % 2 ^ 4 * 2 ^ 4 +
              ((accE <<< 8) ||| v) % 2 ^ 4] := by
          rw [InFlight, if_neg (by omega)]
        rw [List.singleton_append, List.cons_append, h7, hIFold, hIFmid,
          hB, shr_and_mask, hA]
        have e4 : (2 : Nat) ^ 4 = 16 := by norm_num
        have e7 : (2 : Nat) ^ 7 = 128 := by norm_num
        have e1l : (2 : Nat) ^ 1 = 2 := by norm_num
        rw [e256, e4, e7, e1l, e32]
        have hx1 : (32 * accD + (256 * accE + v) / 16 % 32) / 16 % 256 =
            accD % 128 * 2 + accE % 2 := by omega
        have hx2 : (32 * accD + (256 * accE + v) / 16 % 32) % 16 * 16 +
            (256 * accE + v) % 16 = v := by omega
        rw [hx1, hx2]
        simp
    -- b = 2, d = 6: two symbols out, decoder completes two bytes
    · have hd0 : d = 6 := by omega
      subst hd0
      have hem : emitAll 5 ((accE <<< 8) ||| v) (2 + 8) =
          ([((accE <<< 8) ||| v) >>> 5 &&& (2 ^ 5 - 1),
            ((accE <<< 8) ||| v) >>> 0 &&& (2 ^ 5 - 1)], 0) := by
        rw [show (2 + 8 : Nat) = 10 from rfl, emitAll_two (by omega) (by omega) (by omega)]
      have he1 : ((accE <<< 8) ||| v) >>> 5 &&& (2 ^ 5 - 1) < 32 := by
        rw [shr_and_mask]
        omega
      have he2 : ((accE <<< 8) ||| v) >>> 0 &&& (2 ^ 5 - 1) < 32 := by
        rw [shr_and_mask]
        omega
      obtain ⟨ss, accE', b', out, accD', d', h1, h2, h3, h4, h5, h6, h7⟩ :=
        ih ((accE <<< 8) ||| v) 0
          ((((accD <<< 5) ||| (((accE <<< 8) ||| v) >>> 5 &&& (2 ^ 5 - 1))) <<< 5) |||
            (((accE <<< 8) ||| v) >>> 0 &&& (2 ^ 5 - 1)))
          0 hbs (by omega) (by omega) (by omega)
      have hdem1 : emitAll 8 ((accD <<< 5) ||| (((accE <<< 8) ||| v) >>> 5 &&& (2 ^ 5 - 1)))
          (6 + 5) =
          ([((accD <<< 5) ||| (((accE <<< 8) ||| v) >>> 5 &&& (2 ^ 5 - 1))) >>> 3 &&&
            (2 ^ 8 - 1)], 3) := by
        rw [show (6 + 5 : Nat) = 11 from rfl, emitAll_one (by omega) (by omega) (by omega)]
      have hdem2 : emitAll 8
          ((((accD <<< 5) ||| (((accE <<< 8) ||| v) >>> 5 &&& (2 ^ 5 - 1))) <<< 5) |||
            (((accE <<< 8) ||| v) >>> 0 &&& (2 ^ 5 - 1))) (3 + 5) =
          ([(((((accD <<< 5) ||| (((accE <<< 8) ||| v) >>> 5 &&& (2 ^ 5 - 1))) <<< 5) |||
            (((accE <<< 8) ||| v) >>> 0 &&& (2 ^ 5 - 1)))) >>> 0 &&& (2 ^ 8 - 1)], 0) := by
        rw [show (3 + 5 : Nat) = 8 from rfl, emitAll_one (by omega) (by omega) (by omega)]
      refine ⟨_ ++ ss, accE', b', _ ++ (_ ++ out), accD', d',
        cbLoop85_cons_ok hv hem h1, ?_,
        cbLoop58_cons_ok he1 hdem1 (cbLoop58_cons_ok he2 hdem2 h3), h4, h5, h6, ?_⟩
      · intro s hs
        rcases List.mem_append.mp hs with hs | hs
        · rcases List.mem_cons.mp hs with rfl | hs
          · exact he1
          · rcases List.mem_singleton.mp hs with rfl
            exact he2
        · exact h2 s hs
      · have hB1 : (accD <<< 5) ||| (((accE <<< 8) ||| v) >>> 5 &&& (2 ^ 5 - 1)) =
            32 * accD + (256 * accE + v) / 2 ^ 5 % 2 ^ 5 := by
          rw [shr_and_mask, hA, shl_or_eq accD (by omega), e32]
        have hB2 : (((accD <<< 5) ||| (((accE <<< 8) ||| v) >>> 5 &&& (2 ^ 5 - 1))) <<< 5) |||
            (((accE <<< 8) ||| v) >>> 0 &&& (2 ^ 5 - 1)) =
            32 * (32 * accD + (256 * accE + v) / 2 ^ 5 % 2 ^ 5) +
              (256 * accE + v) / 2 ^ 0 % 2 ^ 5 := by
          rw [hB1, shl_or_eq _ (by rw [shr_and_mask]; omega), shr_and_mask, hA, e32]
        have hIFold : InFlight accE 2 accD 6 = [accD % 2 ^ 6 * 2 ^ 2 + accE % 2 ^ 2] := by
          rw [InFlight, if_neg (by omega)]
        have hIFnew : InFlight ((accE <<< 8) ||| v) 0
            ((((accD <<< 5) ||| (((accE <<< 8) ||| v) >>> 5 &&& (2 ^ 5 - 1))) <<< 5) |||
              (((accE <<< 8) ||| v) >>> 0 &&& (2 ^ 5 - 1))) 0 = [] := by
          rw [InFlight, if_pos rfl]
        rw [List.singleton_append, List.cons_append, List.singleton_append,
          List.cons_append, h7, hIFnew, hIFold, hB2, hB1,
          shr_and_mask, shr_and_mask]
        have e0 : (2 : Nat) ^ 0 = 1 := by norm_num
        have e2l : (2 : Nat) ^ 2 = 4 := by norm_num
        have e3 : (2 : Nat) ^ 3 = 8 := by norm_num
        have e6 : (2 : Nat) ^ 6 = 64 := by norm_num
        rw [e256, e0, e2l, e3, e6, e32]
        have hx1 : (32 * accD + (256 * accE + v) / 32 % 32) / 8 % 256 =
            accD % 64 * 4 + accE % 4 := by omega
        have hx2 : (32 * (32 * accD + (256 * accE + v) / 32 % 32) +
            (256 * accE + v) / 1 % 32) / 1 % 256 = v := by omega
        rw [hx1, hx2]
        simp
    -- b = 3, d = 5: two symbols out, decoder completes one byte
    · have hd0 : d = 5 := by omega
      subst hd0
      have hem : emitAll 5 ((accE <<< 8) ||| v) (3 + 8) =
          ([((accE <<< 8) ||| v) >>> 6 &&& (2 ^ 5 - 1),
            ((accE <<< 8) ||| v) >>> 1 &&& (2 ^ 5 - 1)], 1) := by
        rw [show (3 + 8 : Nat) = 11 from rfl, emitAll_two (by omega) (by omega) (by omega)]
      have he1 : ((accE <<< 8) ||| v) >>> 6 &&& (2 ^ 5 - 1) < 32 := by
        rw [shr_and_mask]
        omega
      have he2 : ((accE <<< 8) ||| v) >>> 1 &&& (2 ^ 5 - 1) < 32 := by
        rw [shr_and_mask]
        omega
      obtain ⟨ss, accE', b', out, accD', d', h1, h2, h3, h4, h5, h6, h7⟩ :=
        ih ((accE <<< 8) ||| v) 1
          ((((accD <<< 5) ||| (((accE <<< 8) ||| v) >>> 6 &&& (2 ^ 5 - 1))) <<< 5) |||
            (((accE <<< 8) ||| v) >>> 1 &&& (2 ^ 5 - 1)))
          7 hbs (by omega) (by omega) (by omega)
      have hdem1 : emitAll 8 ((accD <<< 5) ||| (((accE <<< 8) ||| v) >>> 6 &&& (2 ^ 5 - 1)))
          (5 + 5) =
          ([((accD <<< 5) ||| (((accE <<< 8) ||| v) >>> 6 &&& (2 ^ 5 - 1))) >>> 2 &&&
            (2 ^ 8 - 1)], 2) := by
        rw [show (5 + 5 : Nat) = 10 from rfl, emitAll_one (by omega) (by omega) (by omega)]
      have hdem2 : emitAll 8
          ((((accD <<< 5) ||| (((accE <<< 8) ||| v) >>> 6 &&& (2 ^ 5 - 1))) <<< 5) |||
            (((accE <<< 8) ||| v) >>> 1 &&& (2 ^ 5 - 1))) (2 + 5) = ([], 7) := by
        rw [show (2 + 5 : Nat) = 7 from rfl, emitAll_low (by omega)]
      refine ⟨_ ++ ss, accE', b', _ ++ ([] ++ out), accD', d',
        cbLoop85_cons_ok hv hem h1, ?_,
        cbLoop58_cons_ok he1 hdem1 (cbLoop58_cons_ok he2 hdem2 h3), h4, h5, h6, ?_⟩
      · intro s hs
        rcases List.mem_append.mp hs with hs | hs
        · rcases List.mem_cons.mp hs with rfl | hs
          · exact he1
          · rcases List.mem_singleton.mp hs with rfl
            exact he2
        · exact h2 s hs
      · have hB1 : (accD <<< 5) ||| (((accE <<< 8) ||| v) >>> 6 &&& (2 ^ 5 - 1)) =
            32 * accD + (256 * accE + v) / 2 ^ 6 % 2 ^ 5 := by
          rw [shr_and_mask, hA, shl_or_eq accD (by omega), e32]
        have hB2 : (((accD <<< 5) ||| (((accE <<< 8) ||| v) >>> 6 &&& (2 ^ 5 - 1))) <<< 5) |||
            (((accE <<< 8) ||| v) >>> 1 &&& (2 ^ 5 - 1)) =
            32 * (32 * accD + (256 * accE + v) / 2 ^ 6 % 2 ^ 5) +
              (256 * accE + v) / 2 ^ 1 % 2 ^ 5 := by
          rw [hB1, shl_or_eq _ (by rw [shr_and_mask]; omega), shr_and_mask, hA, e32]
        have hIFold : InFlight accE 3 accD 5 = [accD % 2 ^ 5 * 2 ^ 3 + accE % 2 ^ 3] := by
          rw [InFlight, if_neg (by omega)]
        have hIFmid : InFlight ((accE <<< 8) ||| v) 1
            ((((accD <<< 5) ||| (((accE <<< 8) ||| v) >>> 6 &&& (2 ^ 5 - 1))) <<< 5) |||
              (((accE <<< 8) ||| v) >>> 1 &&& (2 ^ 5 - 1))) 7 =
            [((((accD <<< 5) ||| (((accE <<< 8) ||| v) >>> 6 &&& (2 ^ 5 - 1))) <<< 5) |||
              (((accE <<< 8) ||| v) >>> 1 &&& (2 ^ 5 - 1))) % 2 ^ 7 * 2 ^ 1 +
              ((accE <<< 8) ||| v) % 2 ^ 1] := by
          rw [InFlight, if_neg (by omega)]
        rw [List.singleton_append, List.cons_append, List.nil_append, h7,
          hIFold, hIFmid, hB2, hB1, shr_and_mask, hA]
        have e1l : (2 : Nat) ^ 1 = 2 := by norm_num
        have e2l : (2 : Nat) ^ 2 = 4 := by norm_num
        have e3 : (2 : Nat) ^ 3 = 8 := by norm_num
        have e6 : (2 : Nat) ^ 6 = 64 := by norm_num
        have e7 : (2 : Nat) ^ 7 = 128 := by norm_num
        rw [e256, e1l, e2l, e3, e6, e7, e32]
        have hx1 : (32 * accD + (256 * accE + v) / 64 % 32) / 4 % 256 =
            accD % 32 * 8 + accE % 8 := by omega
        have hx2 : (32 * (32 * accD + (256 * accE + v) / 64 % 32) +
            (256 * accE + v) / 2 % 32) % 128 * 2 + (256 * accE + v) % 2 = v := by omega
        rw [hx1, hx2]
        simp
    -- b = 4, d = 4: two symbols out, decoder completes one byte
    · have hd0 : d = 4 := by omega
      subst hd0
      have hem : emitAll 5 ((accE <<< 8) ||| v) (4 + 8) =
          ([((accE <<< 8) ||| v) >>> 7 &&& (2 ^ 5 - 1),
            ((accE <<< 8) ||| v) >>> 2 &&& (2 ^ 5 - 1)], 2) := by
        rw [show (4 + 8 : Nat) = 12 from rfl, emitAll_two (by omega) (by omega) (by omega)]
      have he1 : ((accE <<< 8) ||| v) >>> 7 &&& (2 ^ 5 - 1) < 32 := by
        rw [shr_and_mask]
        omega
      have he2 : ((accE <<< 8) ||| v) >>> 2 &&& (2 ^ 5 - 1) < 32 := by
        rw [shr_and_mask]
        omega
      obtain ⟨ss, accE', b', out, accD', d', h1, h2, h3, h4, h5, h6, h7⟩ :=
        ih ((accE <<< 8) ||| v) 2
          ((((accD <<< 5) ||| (((accE <<< 8) ||| v) >>> 7 &&& (2 ^ 5 - 1))) <<< 5) |||
            (((accE <<< 8) ||| v) >>> 2 &&& (2 ^ 5 - 1)))
          6 hbs (by omega) (by omega) (by omega)
      have hdem1 : emitAll 8 ((accD <<< 5) ||| (((accE <<< 8) ||| v) >>> 7 &&& (2 ^ 5 - 1)))
          (4 + 5) =
          ([((accD <<< 5) ||| (((accE <<< 8) ||| v) >>> 7 &&& (2 ^ 5 - 1))) >>> 1 &&&
            (2 ^ 8 - 1)], 1) := by
        rw [show (4 + 5 : Nat) = 9 from rfl, emitAll_one (by omega) (by omega) (by omega)]
      have hdem2 : emitAll 8
          ((((accD <<< 5) ||| (((accE <<< 8) ||| v) >>> 7 &&& (2 ^ 5 - 1))) <<< 5) |||
            (((accE <<< 8) ||| v) >>> 2 &&& (2 ^ 5 - 1))) (1 + 5) = ([], 6) := by
        rw [show (1 + 5 : Nat) = 6 from rfl, emitAll_low (by omega)]
      refine ⟨_ ++ ss, accE', b', _ ++ ([] ++ out), accD', d',
        cbLoop85_cons_ok hv hem h1, ?_,
        cbLoop58_cons_ok he1 hdem1 (cbLoop58_cons_ok he2 hdem2 h3), h4, h5, h6, ?_⟩
      · intro s hs
        rcases List.mem_append.mp hs with hs | hs
        · rcases List.mem_cons.mp hs with rfl | hs
          · exact he1
          · rcases List.mem_singleton.mp hs with rfl
            exact he2
        · exact h2 s hs
      · have hB1 : (accD <<< 5) ||| (((accE <<< 8) ||| v) >>> 7 &&& (2 ^ 5 - 1)) =
            32 * accD + (256 * accE + v) / 2 ^ 7 % 2 ^ 5 := by
          rw [shr_and_mask, hA, shl_or_eq accD (by omega), e32]
        have hB2 : (((accD <<< 5) ||| (((accE <<< 8) ||| v) >>> 7 &&& (2 ^ 5 - 1))) <<< 5) |||
            (((accE <<< 8) ||| v) >>> 2 &&& (2 ^ 5 - 1)) =
            32 * (32 * accD + (256 * accE + v) / 2 ^ 7 % 2 ^ 5) +
              (256 * accE + v) / 2 ^ 2 % 2 ^ 5 := by
          rw [hB1, shl_or_eq _ (by rw [shr_and_mask]; omega), shr_and_mask, hA, e32]
        have hIFold : InFlight accE 4 accD 4 = [accD % 2 ^ 4 * 2 ^ 4 + accE % 2 ^ 4] := by
          rw [InFlight, if_neg (by omega)]
        have hIFmid : InFlight ((accE <<< 8) ||| v) 2
            ((((accD <<< 5) ||| (((accE <<< 8) ||| v) >>> 7 &&& (2 ^ 5 - 1))) <<< 5) |||
              (((accE <<< 8) ||| v) >>> 2 &&& (2 ^ 5 - 1))) 6 =
            [((((accD <<< 5) ||| (((accE <<< 8) ||| v) >>> 7 &&& (2 ^ 5 - 1))) <<< 5) |||
              (((accE <<< 8) ||| v) >>> 2 &&& (2 ^ 5 - 1))) % 2 ^ 6 * 2 ^ 2 +
              ((accE <<< 8) ||| v) % 2 ^ 2] := by
          rw [InFlight, if_neg (by omega)]
        rw [List.singleton_append, List.cons_append, List.nil_append, h7,
          hIFold, hIFmid, hB2, hB1, shr_and_mask, hA]
        have e1l : (2 : Nat) ^ 1 = 2 := by norm_num
        have e2l : (2 : Nat) ^ 2 = 4 := by norm_num
        have e4 : (2 : Nat) ^ 4 = 16 := by norm_num
        have e6 : (2 : Nat) ^ 6 = 64 := by norm_num
        have e7 : (2 : Nat) ^ 7 = 128 := by norm_num
        rw [e256, e1l, e2l, e4, e6, e7, e32]
        have hx1 : (32 * accD + (256 * accE + v) / 128 % 32) / 2 % 256 =
            accD % 16 * 16 + accE % 16 := by omega
        have hx2 : (32 * (32 * accD + (256 * accE + v) / 128 % 32) +
            (256 * accE + v) / 4 % 32) % 64 * 4 + (256 * accE + v) % 4 = v := by omega
        rw [hx1, hx2]
        simp

theorem shl_and_mask (x j w : Nat) : (x <<< j) &&& (2 ^ w - 1) = x * 2 ^ j % 2 ^ w := by
  rw [Nat.shiftLeft_eq, Nat.and_pow_two_sub_one_eq_mod]

/-- Loose 8→5 conversion followed by strict 5→8 conversion is the
identity on byte lists. -/
theorem convertBits_roundtrip (bs : List Nat) (h : ∀ v ∈ bs, v < 256) :
    ∃ ss, convertBits bs 8 5 false = .ok ss ∧ (∀ s ∈ ss, s < 32) ∧
      convertBits ss 5 8 true = .ok bs := by
  obtain ⟨ss, accE', b', out, accD', d', h1, h2, h3, h4, h5, h6, h7⟩ :=
    pipe bs 0 0 0 0 h (by omega) (by omega) (by omega)
  rw [show InFlight 0 0 0 0 = [] from rfl, List.nil_append] at h7
  rcases Nat.eq_zero_or_pos b' with hb0 | hbpos
  · -- no flush needed; decoder state is clean
    subst hb0
    have hd0 : d' = 0 := by omega
    subst hd0
    rw [show InFlight accE' 0 accD' 0 = [] from rfl, List.append_nil] at h7
    subst h7
    refine ⟨ss, ?_, h2, ?_⟩
    · rw [convertBits, h1]
      simp
    · rw [convertBits, h3]
      have hz : accD' <<< 8 &&& 255 = 0 := by
        rw [show (255 : Nat) = 2 ^ 8 - 1 from by norm_num, shl_and_mask]
        have : (2 : Nat) ^ 8 = 256 := by norm_num
        omega
      simp [hz]
  · -- flush one padded symbol, decoder completes the in-flight byte
    have hd' : b' + d' = 8 := by omega
    have hdd : d' = 8 - b' := by omega
    subst hdd
    have hF : (accE' <<< (5 - b')) &&& (2 ^ 5 - 1) < 32 := by
      rw [shl_and_mask]
      have : (2 : Nat) ^ 5 = 32 := by norm_num
      omega
    have henc : convertBits bs 8 5 false =
        .ok (ss ++ [(accE' <<< (5 - b')) &&& (2 ^ 5 - 1)]) := by
      rw [convertBits, h1]
      simp [hbpos]
    refine ⟨ss ++ [(accE' <<< (5 - b')) &&& (2 ^ 5 - 1)], henc, ?_, ?_⟩
    · intro s hs
      rcases List.mem_append.mp hs with hs | hs
      · exact h2 s hs
      · rcases List.mem_singleton.mp hs with rfl
        exact hF
    · have hIF : InFlight accE' b' accD' (8 - b') =
          [(accD' % 2 ^ (8 - b')) * 2 ^ b' + accE' % 2 ^ b'] := by
        rw [InFlight, if_neg (by omega)]
      rw [hIF] at h7
      have hdem : emitAll 8 ((accD' <<< 5) ||| ((accE' <<< (5 - b')) &&& (2 ^ 5 - 1)))
          (8 - b' + 5) =
          ([((accD' <<< 5) ||| ((accE' <<< (5 - b')) &&& (2 ^ 5 - 1))) >>> (8 - b' + 5 - 8) &&&
            (2 ^ 8 - 1)], 8 - b' + 5 - 8) := by
        rw [emitAll_one (by omega) (by omega) (by omega)]
      have hdec1 : cbLoop 5 8 [(accE' <<< (5 - b')) &&& (2 ^ 5 - 1)] accD' (8 - b') =
          .ok ([((accD' <<< 5) ||| ((accE' <<< (5 - b')) &&& (2 ^ 5 - 1))) >>> (8 - b' + 5 - 8) &&&
            (2 ^ 8 - 1)] ++ [],
            (accD' <<< 5) ||| ((accE' <<< (5 - b')) &&& (2 ^ 5 - 1)), 8 - b' + 5 - 8) :=
        cbLoop58_cons_ok hF hdem (cbLoop_nil 5 8 _ _)
      have hBar : (accD' <<< 5) ||| ((accE' <<< (5 - b')) &&& (2 ^ 5 - 1)) =
          32 * accD' + accE' * 2 ^ (5 - b') % 2 ^ 5 := by
        rw [shl_and_mask, shl_or_eq accD' (Nat.mod_lt _ (by norm_num))]
        norm_num
      rw [convertBits, cbLoop_append_ok h3, hdec1]
      have hstrict : 8 - b' + 5 - 8 < 5 := by omega
      have hbyte : ((accD' <<< 5) ||| ((accE' <<< (5 - b')) &&& (2 ^ 5 - 1))) >>>
          (8 - b' + 5 - 8) &&& (2 ^ 8 - 1) =
          (accD' % 2 ^ (8 - b')) * 2 ^ b' + accE' % 2 ^ b' := by
        rw [shr_and_mask, hBar]
        interval_cases b'
        all_goals norm_num
        all_goals omega
      have hz : (((accD' <<< 5) ||| ((accE' <<< (5 - b')) &&& (2 ^ 5 - 1))) <<<
          (8 - (8 - b' + 5 - 8))) &&& (2 ^ 8 - 1) = 0 := by
        rw [shl_and_mask, hBar]
        interval_cases b'
        all_goals norm_num
        all_goals omega
      simp only [List.append_nil]
      rw [hbyte]
      simp only [hstrict, hz, and_self, if_true, true_and]
      rw [h7]

theorem prefixToArray_lt (pfx : List Nat) : ∀ c ∈ prefixToArray pfx, c < 32 := by
  intro c hc
  obtain ⟨d, _, rfl⟩ := List.mem_map.mp hc
  rw [show (31 : Nat) = 2 ^ 5 - 1 from by norm_num, Nat.and_pow_two_sub_one_eq_mod]
  have : (2 : Nat) ^ 5 = 32 := by norm_num
  omega

/-- **C1 (round-trip), core form.**  Encoding any byte payload with a
valid prefix (ASCII, colon-free, already lower-case) and a version byte,
then decoding with that prefix allowed, recovers exactly the prefix,
version and payload. -/
theorem decode_encode (payload pfx : List Nat) (version : Nat) (addr : List Nat)
    (hpay : ∀ b ∈ payload, b < 256) (hver : version < 256)
    (hcolon : 58 ∉ pfx) (hlower : toLowerStr pfx = pfx)
    (henc : encodeKaspaAddress payload pfx version = .ok addr) :
    decodeKaspaAddress addr [pfx] = .ok ⟨pfx, version, payload⟩ := by
  have hmap : (version :: payload).map (· % 256) = version :: payload := by
    rw [List.map_cons, Nat.mod_eq_of_lt hver]
    congr 1
    conv_rhs => rw [← List.map_id payload]
    apply List.map_congr_left
    intro b hb
    exact Nat.mod_eq_of_lt (hpay b hb)
  have hvp : ∀ v ∈ version :: payload, v < 256 := by
    intro v hv
    rcases List.mem_cons.mp hv with rfl | hv
    · exact hver
    · exact hpay v hv
  obtain ⟨ss, hcb, hss32, hback⟩ := convertBits_roundtrip (version :: payload) hvp
  -- the checksum symbols
  have hcs32 := checksumToArray_lt
    (polymod ((prefixToArray (toLowerStr pfx) ++ [0]) ++ ss ++ List.replicate 8 0))
  have hfull32 : ∀ v ∈ ss ++ checksumToArray
      (polymod ((prefixToArray (toLowerStr pfx) ++ [0]) ++ ss ++ List.replicate 8 0)),
      v < 32 := by
    intro v hv
    rcases List.mem_append.mp hv with hv | hv
    · exact hss32 v hv
    · exact hcs32 v hv
  -- evaluate the encoder
  rw [encodeKaspaAddress, hmap, hcb] at henc
  simp only [bind, Except.bind] at henc
  rw [base32Encode_ok hfull32] at henc
  simp only [bind, Except.bind, Except.ok.injEq] at henc
  subst henc
  set enc := (ss ++ checksumToArray
    (polymod ((prefixToArray (toLowerStr pfx) ++ [0]) ++ ss ++ List.replicate 8 0))).map
      (fun v => CHARSET.getD v 0) with hencdef
  -- character facts about the base32 part
  have hencmem : ∀ c ∈ enc, c ∈ CHARSET := by
    intro c hc
    rw [hencdef] at hc
    obtain ⟨v, hv, rfl⟩ := List.mem_map.mp hc
    exact charset_getD_mem v (hfull32 v hv)
  have henclower : toLowerStr enc = enc :=
    toLowerStr_fixed fun c hc => charset_lower c (hencmem c hc)
  have henc58 : 58 ∉ enc := fun hc => charset_ne_58 58 (hencmem 58 hc) rfl
  -- the address is single-case and lower-case
  rw [hlower]
  have haddrlower : toLowerStr (pfx ++ [58] ++ enc) = pfx ++ [58] ++ enc := by
    rw [toLowerStr_append, toLowerStr_append, hlower, henclower]
    congr 1
  have hsplit : jsSplit 58 (pfx ++ [58] ++ enc) = [pfx, enc] := by
    rw [List.append_assoc, List.singleton_append, jsSplit_append enc hcolon,
      jsSplit_no_sep henc58]
  -- evaluate the decoder
  rw [decodeKaspaAddress, normalizeAddress, hasSingleCase_of_lower haddrlower,
    if_pos rfl, haddrlower, hsplit]
  simp only [bind, Except.bind, List.map_cons, List.map_nil, hlower]
  rw [show List.contains [pfx] pfx = true from by simp]
  simp only [if_true]
  rw [base32Decode_encode hfull32]
  simp only [bind, Except.bind]
  have hpoly : hasValidChecksum pfx (ss ++ checksumToArray
      (polymod ((prefixToArray (toLowerStr pfx) ++ [0]) ++ ss ++ List.replicate 8 0))) =
      true := by
    rw [hasValidChecksum]
    have hd32 : ∀ d ∈ prefixToArray pfx ++ [0] ++ ss, d < 32 := by
      intro d hd
      rcases List.mem_append.mp hd with hd | hd
      · rcases List.mem_append.mp hd with hd | hd
        · exact prefixToArray_lt pfx d hd
        · rcases List.mem_singleton.mp hd with rfl
          norm_num
      · exact hss32 d hd
    have := polymod_append_checksum (prefixToArray pfx ++ [0] ++ ss) hd32
    rw [hlower]
    simp only [List.append_assoc] at this ⊢
    rw [this]
    simp
  rw [hpoly]
  simp only [if_true]
  have htake : (ss ++ checksumToArray
      (polymod ((prefixToArray (toLowerStr pfx) ++ [0]) ++ ss ++ List.replicate 8 0))).take
      ((ss ++ checksumToArray
        (polymod ((prefixToArray (toLowerStr pfx) ++ [0]) ++ ss ++
          List.replicate 8 0))).length - 8) = ss := by
    rw [List.length_append, checksumToArray_length]
    have : ss.length + 8 - 8 = ss.length := by omega
    rw [this, List.take_left]
  rw [htake, hback]

/-- The `'kaspa'` prefix as code units. -/
def kaspaPrefixStr : List Nat := [107, 97, 115, 112, 97]

/-- A sample address: version 0, payload = 32 bytes of `0x01`,
prefix `'kaspa'`. -/
def sampleAddr : List Nat :=
  match encodeKaspaAddress (List.replicate 32 1) kaspaPrefixStr 0 with
  | .ok a => a
  | .error _ => []

/-- **C1.**  Encode/decode round-trip: for every valid triple (byte
payload, prefix, version byte) — prefix colon-free and lower-case, the
form every allowed network prefix has — encoding and then decoding with
that prefix allowed succeeds and returns exactly the prefix, version
and payload. -/
theorem c1_encode_decode_roundtrip (payload pfx : List Nat) (version : Nat)
    (hpay : ∀ b ∈ payload, b < 256) (hver : version < 256)
    (hcolon : 58 ∉ pfx) (hlower : toLowerStr pfx = pfx) :
    ∃ addr, encodeKaspaAddress payload pfx version = .ok addr ∧
      decodeKaspaAddress addr [pfx] = .ok ⟨pfx, version, payload⟩ := by
  have hmap : (version :: payload).map (· % 256) = version :: payload := by
    rw [List.map_cons, Nat.mod_eq_of_lt hver]
    congr 1
    conv_rhs => rw [← List.map_id payload]
    apply List.map_congr_left
    intro b hb
    exact Nat.mod_eq_of_lt (hpay b hb)
  have hvp : ∀ v ∈ version :: payload, v < 256 := by
    intro v hv
    rcases List.mem_cons.mp hv with rfl | hv
    · exact hver
    · exact hpay v hv
  obtain ⟨ss, hcb, hss32, _⟩ := convertBits_roundtrip (version :: payload) hvp
  have hcs32 := checksumToArray_lt
    (polymod ((prefixToArray (toLowerStr pfx) ++ [0]) ++ ss ++ List.replicate 8 0))
  have hfull32 : ∀ v ∈ ss ++ checksumToArray
      (polymod ((prefixToArray (toLowerStr pfx) ++ [0]) ++ ss ++ List.replicate 8 0)),
      v < 32 := by
    intro v hv
    rcases List.mem_append.mp hv with hv | hv
    · exact hss32 v hv
    · exact hcs32 v hv
  have henc : encodeKaspaAddress payload pfx version =
      .ok (toLowerStr pfx ++ [58] ++ (ss ++ checksumToArray
        (polymod ((prefixToArray (toLowerStr pfx) ++ [0]) ++ ss ++
          List.replicate 8 0))).map (fun v => CHARSET.getD v 0)) := by
    rw [encodeKaspaAddress, hmap, hcb]
    simp only [bind, Except.bind]
    rw [base32Encode_ok hfull32]
  exact ⟨_, henc, decode_encode payload pfx version _ hpay hver hcolon hlower henc⟩

/-- **C1 witness**: the round-trip at payload = 32 bytes of `0x01`,
prefix `'kaspa'`, version `0`. -/
theorem c1_encode_decode_roundtrip_witness :
    ∃ addr, encodeKaspaAddress (List.replicate 32 1) kaspaPrefixStr 0 = .ok addr ∧
      decodeKaspaAddress addr [kaspaPrefixStr] =
        .ok ⟨kaspaPrefixStr, 0, List.replicate 32 1⟩ :=
  c1_encode_decode_roundtrip (List.replicate 32 1) kaspaPrefixStr 0
    (by decide) (by decide) (by decide) (by decide)

/-- **C7.**  Spend-script derivation dispatches on the decoded version:
for a version-0 address, a 32-byte payload yields exactly the 34 bytes
`0x20 ‖ payload ‖ 0xac` and any other payload length fails with
`InvalidKeyLength`; any version other than 0, 1 or 8 fails with
`UnsupportedVersion`. -/
theorem c7_spend_script_v0 (addr : List Nat) (prefixes : List (List Nat))
    (dec : DecodedKaspaAddress)
    (hdec : decodeKaspaAddress addr prefixes = .ok dec) :
    (dec.version = 0 →
      (dec.payload.length = 32 →
        addressToScriptPublicKey addr prefixes = .ok (0x20 :: dec.payload ++ [0xac]) ∧
        (0x20 :: dec.payload ++ [0xac]).length = 34) ∧
      (dec.payload.length ≠ 32 →
        addressToScriptPublicKey addr prefixes = .error .invalidKeyLength)) ∧
    (dec.version ≠ 0 → dec.version ≠ 1 → dec.version ≠ 8 →
      addressToScriptPublicKey addr prefixes = .error .unsupportedVersion) := by
  obtain ⟨p, ver, pay⟩ := dec
  simp only [addressToScriptPublicKey, hdec, bind, Except.bind]
  constructor
  · intro hv0
    replace hv0 : ver = 0 := hv0
    subst hv0
    constructor
    · intro hlen
      replace hlen : pay.length = 32 := hlen
      simp [hlen]
    · intro hlen
      replace hlen : ¬(pay.length = 32) := hlen
      simp [hlen]
  · intro h0 h1 h8
    replace h0 : ¬(ver = 0) := h0
    replace h1 : ¬(ver = 1) := h1
    replace h8 : ¬(ver = 8) := h8
    rcases ver with _ | _ | _ | _ | _ | _ | _ | _ | _ | n
    · exact absurd rfl h0
    · exact absurd rfl h1
    · rfl
    · rfl
    · rfl
    · rfl
    · rfl
    · rfl
    · exact absurd rfl h8
    · rfl

set_option maxRecDepth 8000

/-- **C7 witness**: at the sample version-0 address with 32-byte
payload. -/
theorem c7_spend_script_v0_witness :
    addressToScriptPublicKey sampleAddr [kaspaPrefixStr] =
      .ok (0x20 :: List.replicate 32 1 ++ [0xac]) ∧
    (0x20 :: List.replicate 32 1 ++ [0xac]).length = 34 :=
  (c7_spend_script_v0 sampleAddr [kaspaPrefixStr]
    ⟨kaspaPrefixStr, 0, List.replicate 32 1⟩ (by decide)).1 rfl |>.1 (by decide)

theorem toLowerStr_count_58 (s : List Nat) : (toLowerStr s).count 58 = s.count 58 := by
  unfold toLowerStr
  induction s with
  | nil => rfl
  | cons c rest ih =>
    rw [List.map_cons, List.count_cons, List.count_cons, ih]
    by_cases hr : 65 ≤ c ∧ c ≤ 90
    · simp only [hr, and_self, if_true]
      have h1 : ¬(c + 32 = 58) := by omega
      have h2 : ¬(c = 58) := by omega
      have h26 : ¬(c = 26) := by omega
      simp [h1, h2, h26]
    · simp [hr]

/-- **C8 (amended).**  Every single-case input string whose colon count
is not exactly one fails with `InvalidFormat`.  (Mixed-case inputs fail
with `MixedCase` first, regardless of their colon count.) -/
theorem c8_invalid_format (s : List Nat) (ps : List (List Nat))
    (hsc : hasSingleCase s = true) (hcount : s.count 58 ≠ 1) :
    decodeKaspaAddress s ps = .error .invalidFormat := by
  rw [decodeKaspaAddress, normalizeAddress, if_pos hsc]
  have hlen : (jsSplit 58 (toLowerStr s)).length ≠ 2 := by
    rw [jsSplit_length, toLowerStr_count_58]
    omega
  rcases hspl : jsSplit 58 (toLowerStr s) with _ | ⟨g1, _ | ⟨g2, _ | ⟨g3, gs⟩⟩⟩
  · exact absurd hspl (jsSplit_ne_nil 58 (toLowerStr s))
  · rfl
  · rw [hspl] at hlen
    simp at hlen
  · rfl

/-- **C8 witness**: the two-character single-case string `"ab"` (no
colon) fails with `InvalidFormat`. -/
theorem c8_invalid_format_witness :
    decodeKaspaAddress [97, 98] [kaspaPrefixStr] = .error .invalidFormat :=
  c8_invalid_format [97, 98] [kaspaPrefixStr] (by decide) (by decide)

/-- **C8 counterexample**: the mixed-case string `"Ab"` contains no
colon yet fails with `MixedCase`, not `InvalidFormat` — the mixed-case
check runs first. -/
theorem c8_counterexample :
    [65, 98].count 58 ≠ 1 ∧
    decodeKaspaAddress [65, 98] [kaspaPrefixStr] = .error .mixedCase ∧
    decodeKaspaAddress [65, 98] [kaspaPrefixStr] ≠ .error .invalidFormat := by
  decide

/-! ### Transaction signing engine

Translated from the wallet's transaction module (sighash computation
and `buildSignedTransaction`).  The cryptographic primitives consumed
from external libraries (`@noble/hashes` blake2b, `@noble/curves`
schnorr/secp256k1) are not code of this repository; they are abstracted
as a parameter record `CryptoPrims`, and theorems quantify over it. -/

/-- External cryptographic primitives: keyed BLAKE2b-256, Schnorr
signing, and secp256k1 private-key validation. -/
structure CryptoPrims where
  blake2b256 : List Nat → List Nat → List Nat
  schnorrSign : List Nat → List Nat → List Nat
  isValidPrivateKey : List Nat → Bool

/-- The ASCII bytes of `'TransactionSigningHash'`. -/
def TRANSACTION_SIGNING_HASH_KEY : List Nat :=
  [84, 114, 97, 110, 115, 97, 99, 116, 105, 111, 110,
   83, 105, 103, 110, 105, 110, 103, 72, 97, 115, 104]

def SIGHASH_ALL : Nat := 0b00000001
def SIGHASH_NONE : Nat := 0b00000010
def SIGHASH_SINGLE : Nat := 0b00000100
def SIGHASH_ANYONECANPAY : Nat := 0b10000000
def SIGHASH_MASK : Nat := 0b00000111

/-- `DEFAULT_SUBNETWORK_ID`: forty `'0'` characters. -/
def DEFAULT_SUBNETWORK_ID : List Nat := List.replicate 40 48

def isSigHashNone (hashType : Nat) : Bool :=
  hashType &&& SIGHASH_MASK = SIGHASH_NONE

def isSigHashSingle (hashType : Nat) : Bool :=
  hashType &&& SIGHASH_MASK = SIGHASH_SINGLE

def isSigHashAnyoneCanPay (hashType : Nat) : Bool :=
  hashType &&& SIGHASH_ANYONECANPAY = SIGHASH_ANYONECANPAY

/-- Hex digit value of an ASCII code unit (`Buffer.from(·, 'hex')`). -/
def hexDigit (c : Nat) : Option Nat :=
  if 48 ≤ c ∧ c ≤ 57 then some (c - 48)
  else if 97 ≤ c ∧ c ≤ 102 then some (c - 87)
  else if 65 ≤ c ∧ c ≤ 70 then some (c - 55)
  else none

/-- `Buffer.from(hex, 'hex')`: decode pairs of hex digits, truncating
at the first invalid pair or odd trailing digit. -/
def hexToBytes : List Nat → List Nat
  | c1 :: c2 :: rest =>
    match hexDigit c1, hexDigit c2 with
    | some h, some l => (16 * h + l) :: hexToBytes rest
    | _, _ => []
  | _ => []

/-- Lower-case hex digit for a value `< 16`. -/
def hexDigitCode (v : Nat) : Nat := if v < 10 then 48 + v else 87 + v

/-- `Buffer.toString('hex')`. -/
def bytesToHex (bytes : List Nat) : List Nat :=
  (bytes.map fun b => [hexDigitCode (b / 16), hexDigitCode (b % 16)]).flatten

/-- `Buffer.writeUInt8` (all call sites pass values `< 256`). -/
def writeUInt8 (v : Nat) : List Nat := [v % 256]

def writeUInt16LE (v : Nat) : List Nat := [v % 256, v / 256 % 256]

def writeUInt32LE (v : Nat) : List Nat :=
  [v % 256, v / 256 % 256, v / 65536 % 256, v / 16777216 % 256]

/-- `Buffer.writeBigUInt64LE`; all call sites pass values in
`[0, 2^64)` (the JS call throws outside that range). -/
def writeUInt64LE (v : Int) : List Nat :=
  (List.range 8).map fun i => v.toNat / 256 ^ i % 256

/-- `HashWriter.writeVarBytes`: 8-byte little-endian length prefix. -/
def writeVarBytes (buffer : List Nat) : List Nat :=
  writeUInt64LE (buffer.length : Int) ++ buffer

def zeroHash : List Nat := List.replicate 32 0

def zeroSubnetworkId : List Nat := List.replicate 20 0

structure Outpoint where
  transactionId : List Nat
  index : Nat
  deriving DecidableEq, Repr, Inhabited

structure SerializableInput where
  previousOutpoint : Outpoint
  signatureScript : List Nat
  sequence : Nat
  sigOpCount : Nat
  deriving DecidableEq, Repr, Inhabited

structure ScriptPubKey where
  version : Nat
  scriptPublicKey : List Nat
  deriving DecidableEq, Repr, Inhabited

structure SerializableOutput where
  amount : Int
  scriptPublicKey : ScriptPubKey
  deriving DecidableEq, Repr, Inhabited

structure SigningUtxo where
  scriptPublicKey : List Nat
  amount : Int
  deriving DecidableEq, Repr, Inhabited

structure SerializableTransaction where
  version : Nat
  inputs : List SerializableInput
  outputs : List SerializableOutput
  lockTime : Int
  subnetworkId : List Nat
  utxos : List SigningUtxo
  deriving DecidableEq, Repr

structure HashCache where
  previousOutputsHash : Option (List Nat)
  sequencesHash : Option (List Nat)
  sigOpCountsHash : Option (List Nat)
  outputsHash : Option (List Nat)
  deriving DecidableEq, Repr

/-- The fresh cache (`const cache: HashCache = {}`). -/
def emptyHashCache : HashCache := ⟨none, none, none, none⟩

/-- `hashOutpoint`: transaction id bytes plus 4-byte LE index. -/
def hashOutpointBytes (input : SerializableInput) : List Nat :=
  hexToBytes input.previousOutpoint.transactionId ++
    writeUInt32LE input.previousOutpoint.index

/-- `hashOutput`: amount, script version, length-prefixed script. -/
def hashOutputBytes (output : SerializableOutput) : List Nat :=
  writeUInt64LE output.amount ++ writeUInt16LE output.scriptPublicKey.version ++
    writeVarBytes (hexToBytes output.scriptPublicKey.scriptPublicKey)

/-- The writer contents of the previous-outputs sub-hash. -/
def previousOutputsHashRaw (prims : CryptoPrims) (tx : SerializableTransaction) :
    List Nat :=
  prims.blake2b256 TRANSACTION_SIGNING_HASH_KEY
    ((tx.inputs.map hashOutpointBytes).flatten)

def sequencesHashRaw (prims : CryptoPrims) (tx : SerializableTransaction) : List Nat :=
  prims.blake2b256 TRANSACTION_SIGNING_HASH_KEY
    ((tx.inputs.map fun input => writeUInt64LE (input.sequence : Int)).flatten)

def sigOpCountsHashRaw (prims : CryptoPrims) (tx : SerializableTransaction) : List Nat :=
  prims.blake2b256 TRANSACTION_SIGNING_HASH_KEY
    ((tx.inputs.map fun _ => writeUInt8 1).flatten)

def outputsHashRaw (prims : CryptoPrims) (tx : SerializableTransaction) : List Nat :=
  prims.blake2b256 TRANSACTION_SIGNING_HASH_KEY
    ((tx.outputs.map hashOutputBytes).flatten)

def getPreviousOutputsHash (prims : CryptoPrims) (tx : SerializableTransaction)
    (hashType : Nat) (cache : HashCache) : List Nat × HashCache :=
  if isSigHashAnyoneCanPay hashType then (zeroHash, cache)
  else
    match cache.previousOutputsHash with
    | some h => (h, cache)
    | none =>
      let h := previousOutputsHashRaw prims tx
      (h, { cache with previousOutputsHash := some h })

def getSequencesHash (prims : CryptoPrims) (tx : SerializableTransaction)
    (hashType : Nat) (cache : HashCache) : List Nat × HashCache :=
  if isSigHashSingle hashType || isSigHashAnyoneCanPay hashType ||
      isSigHashNone hashType then (zeroHash, cache)
  else
    match cache.sequencesHash with
    | some h => (h, cache)
    | none =>
      let h := sequencesHashRaw prims tx
      (h, { cache with sequencesHash := some h })

def getSigOpCountsHash (prims : CryptoPrims) (tx : SerializableTransaction)
    (hashType : Nat) (cache : HashCache) : List Nat × HashCache :=
  if isSigHashAnyoneCanPay hashType then (zeroHash, cache)
  else
    match cache.sigOpCountsHash with
    | some h => (h, cache)
    | none =>
      let h := sigOpCountsHashRaw prims tx
      (h, { cache with sigOpCountsHash := some h })

def getOutputsHash (prims : CryptoPrims) (tx : SerializableTransaction)
    (inputIndex : Nat) (hashType : Nat) (cache : HashCache) : List Nat × HashCache :=
  if isSigHashNone hashType then (zeroHash, cache)
  else if isSigHashSingle hashType then
    if tx.outputs.length ≤ inputIndex then (zeroHash, cache)
    else
      (prims.blake2b256 TRANSACTION_SIGNING_HASH_KEY
        (hashOutputBytes (tx.outputs.getD inputIndex default)), cache)
  else
    match cache.outputsHash with
    | some h => (h, cache)
    | none =>
      let h := outputsHashRaw prims tx
      (h, { cache with outputsHash := some h })

/-- `calculateSigHash`: the per-input signature hash, threading the
memoized cache.  (`transaction.inputs[inputIndex]` is modelled with
`getD`; all call sites use in-range indices.) -/
def calculateSigHash (prims : CryptoPrims) (tx : SerializableTransaction)
    (hashType : Nat) (inputIndex : Nat) (cache : HashCache) :
    List Nat × HashCache :=
  let input := tx.inputs.getD inputIndex default
  let utxo := tx.utxos.getD inputIndex default
  let r1 := getPreviousOutputsHash prims tx hashType cache
  let r2 := getSequencesHash prims tx hashType r1.2
  let r3 := getSigOpCountsHash prims tx hashType r2.2
  let r4 := getOutputsHash prims tx inputIndex hashType r3.2
  let preimage :=
    writeUInt16LE tx.version ++ r1.1 ++ r2.1 ++ r3.1 ++
    hashOutpointBytes input ++ writeUInt16LE 0 ++
    writeVarBytes utxo.scriptPublicKey ++ writeUInt64LE utxo.amount ++
    writeUInt64LE (input.sequence : Int) ++ writeUInt8 1 ++
    r4.1 ++ writeUInt64LE tx.lockTime ++ zeroSubnetworkId ++
    writeUInt64LE 0 ++ zeroHash ++ writeUInt8 hashType
  (prims.blake2b256 TRANSACTION_SIGNING_HASH_KEY preimage, r4.2)

/-- Error taxonomy of `buildSignedTransaction`: one constructor per
thrown message, plus propagated address-codec errors. -/
inductive TxError where
  | addr (e : AddrError)      -- propagated from addressToScriptPublicKey
  | invalidPrivateKey         -- 'Invalid private key'
  | noInputs                  -- 'No inputs available for transaction'
  | noOutputs                 -- 'No outputs provided'
  | negativeFee               -- 'Fee cannot be negative'
  | nonPositiveOutputAmount   -- 'Output amount must be positive'
  | insufficientBalance       -- 'Insufficient balance'
  deriving DecidableEq, Repr

structure TransactionSigningInput where
  txId : List Nat
  vOut : Nat
  address : List Nat
  amount : Int
  deriving DecidableEq, Repr

structure TransactionSigningOutput where
  address : List Nat
  amount : Int
  deriving DecidableEq, Repr

structure TransactionSigningParams where
  inputs : List TransactionSigningInput
  outputs : List TransactionSigningOutput
  changeAddress : List Nat
  fee : Int
  privateKey : List Nat
  addressPrefixes : List (List Nat)
  dustThreshold : Option Int := none
  deriving DecidableEq, Repr

structure PayloadOutput where
  amount : List Nat
  scriptPublicKey : ScriptPubKey
  deriving DecidableEq, Repr

structure PayloadTransaction where
  version : Nat
  inputs : List SerializableInput
  outputs : List PayloadOutput
  lockTime : List Nat
  subnetworkId : List Nat
  deriving DecidableEq, Repr

structure SignedTransactionPayload where
  transaction : PayloadTransaction
  allowOrphan : Bool
  deriving DecidableEq, Repr

/-- Decimal digits of a natural number, fuel-indexed so the definition
is structural (the fuel `n + 1` always suffices since a number has at
most as many digits as its value). -/
def natDecA : Nat → Nat → List Nat
  | 0, _ => []
  | fuel + 1, n =>
    if n < 10 then [48 + n] else natDecA fuel (n / 10) ++ [48 + n % 10]

/-- Decimal string (code units) of a natural number. -/
def natDec (n : Nat) : List Nat := natDecA (n + 1) n

/-- `BigInt.prototype.toString` for an integer. -/
def intDec (i : Int) : List Nat :=
  if i < 0 then 45 :: natDec (-i).toNat else natDec i.toNat

/-- The input-resolution loop of `buildSignedTransaction`: resolve each
input's address to a spend script, build the input record and matching
UTXO descriptor, and accumulate the total input amount. -/
def resolveInputs (prefixes : List (List Nat)) :
    List TransactionSigningInput →
    Except TxError (List SerializableInput × List SigningUtxo × Int)
  | [] => .ok ([], [], 0)
  | input :: rest =>
    match addressToScriptPublicKey input.address prefixes with
    | .error e => .error (.addr e)
    | .ok script =>
      match resolveInputs prefixes rest with
      | .error e => .error e
      | .ok (ins, utxos, total) =>
        .ok (⟨⟨input.txId, input.vOut⟩, [], 0, 1⟩ :: ins,
          ⟨script, input.amount⟩ :: utxos, input.amount + total)

/-- The output-resolution loop: check positivity, resolve the address,
accumulate the total output amount. -/
def resolveOutputs (prefixes : List (List Nat)) :
    List TransactionSigningOutput →
    Except TxError (List SerializableOutput × Int)
  | [] => .ok ([], 0)
  | output :: rest =>
    if output.amount ≤ 0 then .error .nonPositiveOutputAmount
    else
      match addressToScriptPublicKey output.address prefixes with
      | .error e => .error (.addr e)
      | .ok script =>
        match resolveOutputs prefixes rest with
        | .error e => .error e
        | .ok (outs, total) =>
          .ok (⟨output.amount, ⟨0, bytesToHex script⟩⟩ :: outs,
            output.amount + total)

/-- The signing loop: for each input index in order, compute the
sighash with the shared cache, Schnorr-sign it, and store the
signature script `0x41 ‖ signature ‖ SIGHASH_ALL` (hex) in place. -/
def signStep (prims : CryptoPrims) (privateKey : List Nat)
    (st : SerializableTransaction × HashCache) (index : Nat) :
    SerializableTransaction × HashCache :=
  let r := calculateSigHash prims st.1 SIGHASH_ALL index st.2
  let signature := prims.schnorrSign r.1 privateKey
  let inp := st.1.inputs.getD index default
  ({ st.1 with
      inputs := st.1.inputs.set index
        { inp with
            signatureScript :=
              bytesToHex ((0x41 :: signature ++ [SIGHASH_ALL]).map (· % 256)) } },
    r.2)

def signAll (prims : CryptoPrims) (privateKey : List Nat)
    (tx : SerializableTransaction) : SerializableTransaction × HashCache :=
  (List.range tx.inputs.length).foldl (signStep prims privateKey)
    (tx, emptyHashCache)

/-- Convert the signed working transaction to the broadcast payload:
amounts and lock-time as decimal strings. -/
def toPayload (tx : SerializableTransaction) : SignedTransactionPayload :=
  ⟨⟨tx.version, tx.inputs,
    tx.outputs.map fun output => ⟨intDec output.amount, output.scriptPublicKey⟩,
    intDec tx.lockTime, tx.subnetworkId⟩, false⟩

/-- `buildSignedTransaction(params)`. -/
def buildSignedTransaction (prims : CryptoPrims)
    (params : TransactionSigningParams) : Except TxError SignedTransactionPayload :=
  if prims.isValidPrivateKey params.privateKey then
    if params.inputs = [] then .error .noInputs
    else if params.outputs = [] then .error .noOutputs
    else if params.fee < 0 then .error .negativeFee
    else
      match resolveInputs params.addressPrefixes params.inputs with
      | .error e => .error e
      | .ok (txInputs, utxos, totalInput) =>
        match resolveOutputs params.addressPrefixes params.outputs with
        | .error e => .error e
        | .ok (txOutputs, totalOutput) =>
          let changeAmount := totalInput - totalOutput - params.fee
          if changeAmount < 0 then .error .insufficientBalance
          else
            let dustThreshold := params.dustThreshold.getD 546
            if dustThreshold ≤ changeAmount then
              match addressToScriptPublicKey params.changeAddress
                  params.addressPrefixes with
              | .error e => .error (.addr e)
              | .ok cscript =>
                .ok (toPayload (signAll prims params.privateKey
                  ⟨0, txInputs,
                    txOutputs ++ [⟨changeAmount, ⟨0, bytesToHex cscript⟩⟩],
                    0, DEFAULT_SUBNETWORK_ID, utxos⟩).1)
            else
              .ok (toPayload (signAll prims params.privateKey
                ⟨0, txInputs, txOutputs, 0, DEFAULT_SUBNETWORK_ID, utxos⟩).1)
  else .error .invalidPrivateKey

/-- Dummy primitives used only to evaluate witnesses and
counterexamples on concrete inputs; the engine theorems are quantified
over arbitrary primitives. -/
def zeroPrims : CryptoPrims :=
  ⟨fun _ _ => List.replicate 32 0, fun _ _ => List.replicate 64 0, fun _ => true⟩

/-! ### Sighash cache transparency -/

/-- A cache state is valid for a transaction when every populated entry
equals the sub-hash it memoizes. -/
def validCache (prims : CryptoPrims) (tx : SerializableTransaction)
    (c : HashCache) : Prop :=
  (∀ h, c.previousOutputsHash = some h → h = previousOutputsHashRaw prims tx) ∧
  (∀ h, c.sequencesHash = some h → h = sequencesHashRaw prims tx) ∧
  (∀ h, c.sigOpCountsHash = some h → h = sigOpCountsHashRaw prims tx) ∧
  (∀ h, c.outputsHash = some h → h = outputsHashRaw prims tx)

theorem validCache_empty (prims : CryptoPrims) (tx : SerializableTransaction) :
    validCache prims tx emptyHashCache := by
  refine ⟨?_, ?_, ?_, ?_⟩ <;> intro h hx <;> cases hx

/-- Modelled from the spec: the naive, uncached recomputation of the
per-input signature hash — each of the four sub-hashes recomputed
directly, with the same flag-dependent zero cases. -/
def calculateSigHashNaive (prims : CryptoPrims) (tx : SerializableTransaction)
    (hashType : Nat) (inputIndex : Nat) : List Nat :=
  let input := tx.inputs.getD inputIndex default
  let utxo := tx.utxos.getD inputIndex default
  let pH := if isSigHashAnyoneCanPay hashType then zeroHash
    else previousOutputsHashRaw prims tx
  let sH := if isSigHashSingle hashType || isSigHashAnyoneCanPay hashType ||
      isSigHashNone hashType then zeroHash
    else sequencesHashRaw prims tx
  let soH := if isSigHashAnyoneCanPay hashType then zeroHash
    else sigOpCountsHashRaw prims tx
  let oH := if isSigHashNone hashType then zeroHash
    else if isSigHashSingle hashType then
      if tx.outputs.length ≤ inputIndex then zeroHash
      else prims.blake2b256 TRANSACTION_SIGNING_HASH_KEY
        (hashOutputBytes (tx.outputs.getD inputIndex default))
    else outputsHashRaw prims tx
  prims.blake2b256 TRANSACTION_SIGNING_HASH_KEY
    (writeUInt16LE tx.version ++ pH ++ sH ++ soH ++
     hashOutpointBytes input ++ writeUInt16LE 0 ++
     writeVarBytes utxo.scriptPublicKey ++ writeUInt64LE utxo.amount ++
     writeUInt64LE (input.sequence : Int) ++ writeUInt8 1 ++
     oH ++ writeUInt64LE tx.lockTime ++ zeroSubnetworkId ++
     writeUInt64LE 0 ++ zeroHash ++ writeUInt8 hashType)

theorem getPreviousOutputsHash_spec (prims : CryptoPrims)
    (tx : SerializableTransaction) (hashType : Nat) {c : HashCache}
    (hc : validCache prims tx c) :
    (getPreviousOutputsHash prims tx hashType c).1 =
      (if isSigHashAnyoneCanPay hashType then zeroHash
        else previousOutputsHashRaw prims tx) ∧
    validCache prims tx (getPreviousOutputsHash prims tx hashType c).2 := by
  unfold getPreviousOutputsHash
  by_cases ha : isSigHashAnyoneCanPay hashType
  · simp [ha, hc]
  · simp only [ha, Bool.false_eq_true, if_false]
    cases hx : c.previousOutputsHash with
    | some h => exact ⟨hc.1 h hx, hc⟩
    | none =>
      refine ⟨rfl, fun h hx => ?_, hc.2.1, hc.2.2.1, hc.2.2.2⟩
      cases hx
      rfl

theorem getSequencesHash_spec (prims : CryptoPrims)
    (tx : SerializableTransaction) (hashType : Nat) {c : HashCache}
    (hc : validCache prims tx c) :
    (getSequencesHash prims tx hashType c).1 =
      (if isSigHashSingle hashType || isSigHashAnyoneCanPay hashType ||
          isSigHashNone hashType then zeroHash
        else sequencesHashRaw prims tx) ∧
    validCache prims tx (getSequencesHash prims tx hashType c).2 := by
  unfold getSequencesHash
  by_cases ha : isSigHashSingle hashType || isSigHashAnyoneCanPay hashType ||
      isSigHashNone hashType
  · simp [ha, hc]
  · simp only [ha, Bool.false_eq_true, if_false]
    cases hx : c.sequencesHash with
    | some h => exact ⟨hc.2.1 h hx, hc⟩
    | none =>
      refine ⟨rfl, hc.1, fun h hx => ?_, hc.2.2.1, hc.2.2.2⟩
      cases hx
      rfl

theorem getSigOpCountsHash_spec (prims : CryptoPrims)
    (tx : SerializableTransaction) (hashType : Nat) {c : HashCache}
    (hc : validCache prims tx c) :
    (getSigOpCountsHash prims tx hashType c).1 =
      (if isSigHashAnyoneCanPay hashType then zeroHash
        else sigOpCountsHashRaw prims tx) ∧
    validCache prims tx (getSigOpCountsHash prims tx hashType c).2 := by
  unfold getSigOpCountsHash
  by_cases ha : isSigHashAnyoneCanPay hashType
  · simp [ha, hc]
  · simp only [ha, Bool.false_eq_true, if_false]
    cases hx : c.sigOpCountsHash with
    | some h => exact ⟨hc.2.2.1 h hx, hc⟩
    | none =>
      refine ⟨rfl, hc.1, hc.2.1, fun h hx => ?_, hc.2.2.2⟩
      cases hx
      rfl

theorem getOutputsHash_spec (prims : CryptoPrims)
    (tx : SerializableTransaction) (inputIndex hashType : Nat) {c : HashCache}
    (hc : validCache prims tx c) :
    (getOutputsHash prims tx inputIndex hashType c).1 =
      (if isSigHashNone hashType then zeroHash
        else if isSigHashSingle hashType then
          if tx.outputs.length ≤ inputIndex then zeroHash
          else prims.blake2b256 TRANSACTION_SIGNING_HASH_KEY
            (hashOutputBytes (tx.outputs.getD inputIndex default))
        else outputsHashRaw prims tx) ∧
    validCache prims tx (getOutputsHash prims tx inputIndex hashType c).2 := by
  unfold getOutputsHash
  by_cases hn : isSigHashNone hashType
  · simp [hn, hc]
  · by_cases hs : isSigHashSingle hashType
    · by_cases hl : tx.outputs.length ≤ inputIndex
      · simp [hn, hs, hl, hc]
      · simp [hn, hs, hl, hc]
    · simp only [hn, hs, Bool.false_eq_true, if_false]
      cases hx : c.outputsHash with
      | some h => exact ⟨hc.2.2.2 h hx, hc⟩
      | none =>
        refine ⟨rfl, hc.1, hc.2.1, hc.2.2.1, fun h hx => ?_⟩
        cases hx
        rfl

/-- `calculateSigHash` on any valid cache computes the naive value and
returns a valid cache. -/
theorem calculateSigHash_spec (prims : CryptoPrims)
    (tx : SerializableTransaction) (hashType inputIndex : Nat) {c : HashCache}
    (hc : validCache prims tx c) :
    (calculateSigHash prims tx hashType inputIndex c).1 =
      calculateSigHashNaive prims tx hashType inputIndex ∧
    validCache prims tx (calculateSigHash prims tx hashType inputIndex c).2 := by
  obtain ⟨h1v, h1c⟩ := getPreviousOutputsHash_spec prims tx hashType hc
  obtain ⟨h2v, h2c⟩ := getSequencesHash_spec prims tx hashType h1c
  obtain ⟨h3v, h3c⟩ := getSigOpCountsHash_spec prims tx hashType h2c
  obtain ⟨h4v, h4c⟩ := getOutputsHash_spec prims tx inputIndex hashType h3c
  simp only [calculateSigHash, calculateSigHashNaive]
  rw [h1v, h2v, h3v, h4v]
  exact ⟨rfl, h4c⟩

/-- C5. Sighash determinism and cache transparency: `calculateSigHash`
returns the same bytes regardless of the state of the memoized cache it
is given — any cache whose populated entries are the sub-hashes they
memoize (in particular the empty cache and every cache produced by
earlier calls on the same transaction) gives the result of the naive
uncached recomputation, and the cache it returns is again of that
form. -/
theorem c5_sighash_cache_transparent (prims : CryptoPrims)
    (tx : SerializableTransaction) (hashType inputIndex : Nat) {c : HashCache}
    (hc : validCache prims tx c) :
    (calculateSigHash prims tx hashType inputIndex c).1 =
      (calculateSigHash prims tx hashType inputIndex emptyHashCache).1 ∧
    (calculateSigHash prims tx hashType inputIndex c).1 =
      calculateSigHashNaive prims tx hashType inputIndex ∧
    validCache prims tx (calculateSigHash prims tx hashType inputIndex c).2 := by
  obtain ⟨h1, h2⟩ := calculateSigHash_spec prims tx hashType inputIndex hc
  obtain ⟨h1e, _⟩ := calculateSigHash_spec prims tx hashType inputIndex
    (validCache_empty prims tx)
  exact ⟨h1.trans h1e.symm, h1, h2⟩

/-- A small concrete transaction used to instantiate engine theorems. -/
def c5Tx : SerializableTransaction :=
  ⟨0, [⟨⟨List.replicate 32 171, 0⟩, [], 0, 1⟩], [⟨1000, ⟨0, [32, 172]⟩⟩],
    0, DEFAULT_SUBNETWORK_ID, [⟨[32, 172], 1000⟩]⟩

/-! ### List helpers for the signing loop -/

theorem getD_set_eq {α : Type} (d : α) :
    ∀ (l : List α) (k : Nat) (a : α), k < l.length → (l.set k a).getD k d = a := by
  intro l
  induction l with
  | nil => intro k a hk; simp at hk
  | cons x xs ih =>
    intro k a hk
    cases k with
    | zero => rfl
    | succ m =>
      rw [List.length_cons] at hk
      exact ih m a (by omega)

theorem getD_set_ne {α : Type} (d : α) :
    ∀ (l : List α) (k j : Nat) (a : α), j ≠ k →
      (l.set k a).getD j d = l.getD j d := by
  intro l
  induction l with
  | nil => intro k j a _; rfl
  | cons x xs ih =>
    intro k j a hjk
    cases k with
    | zero =>
      cases j with
      | zero => exact absurd rfl hjk
      | succ m => rfl
    | succ n =>
      cases j with
      | zero => rfl
      | succ m => exact ih n m a (by omega)

theorem map_set_proj {α β : Type} (f : α → β) (g : α → α)
    (hg : ∀ x, f (g x) = f x) (d : α) :
    ∀ (l : List α) (k : Nat), (l.set k (g (l.getD k d))).map f = l.map f := by
  intro l
  induction l with
  | nil => intro k; rfl
  | cons x xs ih =>
    intro k
    cases k with
    | zero =>
      show f (g x) :: xs.map f = f x :: xs.map f
      rw [hg x]
    | succ m =>
      show f x :: (xs.set m (g (xs.getD m d))).map f = f x :: xs.map f
      rw [ih m]

theorem map_getD_congr {α β : Type} (f : α → β) (d : α) :
    ∀ {l l' : List α}, l.map f = l'.map f →
      ∀ j, j < l.length → f (l.getD j d) = f (l'.getD j d) := by
  intro l
  induction l with
  | nil => intro l' _ j hj; simp at hj
  | cons x xs ih =>
    intro l' h j hj
    cases l' with
    | nil => simp at h
    | cons y ys =>
      simp only [List.map_cons, List.cons.injEq] at h
      cases j with
      | zero => exact h.1
      | succ m =>
        rw [List.length_cons] at hj
        exact ih h.2 m (by omega)

/-! ### Congruence of the sub-hashes in the inputs' signature scripts -/

theorem previousOutputsHashRaw_congr (prims : CryptoPrims)
    {tx tx' : SerializableTransaction}
    (h : tx.inputs.map hashOutpointBytes = tx'.inputs.map hashOutpointBytes) :
    previousOutputsHashRaw prims tx = previousOutputsHashRaw prims tx' := by
  unfold previousOutputsHashRaw
  rw [h]

theorem sequencesHashRaw_congr (prims : CryptoPrims)
    {tx tx' : SerializableTransaction}
    (h : tx.inputs.map (fun i => i.sequence) =
      tx'.inputs.map (fun i => i.sequence)) :
    sequencesHashRaw prims tx = sequencesHashRaw prims tx' := by
  unfold sequencesHashRaw
  rw [show (fun input : SerializableInput => writeUInt64LE (input.sequence : Int)) =
      (fun n : Nat => writeUInt64LE (n : Int)) ∘ (fun i : SerializableInput => i.sequence)
      from rfl,
    ← List.map_map, ← List.map_map, h]

theorem sigOpCountsHashRaw_congr (prims : CryptoPrims)
    {tx tx' : SerializableTransaction}
    (h : tx.inputs.length = tx'.inputs.length) :
    sigOpCountsHashRaw prims tx = sigOpCountsHashRaw prims tx' := by
  unfold sigOpCountsHashRaw
  rw [List.map_const', List.map_const', h]

theorem outputsHashRaw_congr (prims : CryptoPrims)
    {tx tx' : SerializableTransaction} (h : tx.outputs = tx'.outputs) :
    outputsHashRaw prims tx = outputsHashRaw prims tx' := by
  unfold outputsHashRaw
  rw [h]

theorem calculateSigHashNaive_congr (prims : CryptoPrims)
    {tx tx' : SerializableTransaction}
    (hver : tx.version = tx'.version)
    (houts : tx.outputs = tx'.outputs)
    (hlock : tx.lockTime = tx'.lockTime)
    (hutxos : tx.utxos = tx'.utxos)
    (hlen : tx.inputs.length = tx'.inputs.length)
    (hop : tx.inputs.map hashOutpointBytes = tx'.inputs.map hashOutpointBytes)
    (hseq : tx.inputs.map (fun i => i.sequence) =
      tx'.inputs.map (fun i => i.sequence))
    (t j : Nat) (hj : j < tx.inputs.length) :
    calculateSigHashNaive prims tx t j = calculateSigHashNaive prims tx' t j := by
  have hOP : hashOutpointBytes (tx.inputs.getD j default) =
      hashOutpointBytes (tx'.inputs.getD j default) :=
    map_getD_congr hashOutpointBytes default hop j hj
  have hSEQ : (tx.inputs.getD j default).sequence =
      (tx'.inputs.getD j default).sequence :=
    map_getD_congr (fun i => i.sequence) default hseq j hj
  have hPrev := previousOutputsHashRaw_congr prims hop
  have hSeqR := sequencesHashRaw_congr prims hseq
  have hSig := sigOpCountsHashRaw_congr prims hlen
  have hOut := outputsHashRaw_congr prims houts
  simp only [calculateSigHashNaive]
  rw [hver, houts, hlock, hutxos, hPrev, hSeqR, hSig, hOut, hOP, hSEQ]

theorem validCache_congr (prims : CryptoPrims)
    {tx tx' : SerializableTransaction} {c : HashCache}
    (hprev : previousOutputsHashRaw prims tx = previousOutputsHashRaw prims tx')
    (hseq : sequencesHashRaw prims tx = sequencesHashRaw prims tx')
    (hsig : sigOpCountsHashRaw prims tx = sigOpCountsHashRaw prims tx')
    (hout : outputsHashRaw prims tx = outputsHashRaw prims tx')
    (h : validCache prims tx c) : validCache prims tx' c := by
  unfold validCache at h ⊢
  exact ⟨fun h0 hx => (h.1 h0 hx).trans hprev,
    fun h0 hx => (h.2.1 h0 hx).trans hseq,
    fun h0 hx => (h.2.2.1 h0 hx).trans hsig,
    fun h0 hx => (h.2.2.2 h0 hx).trans hout⟩

/-- Invariant of the signing loop after the first `k` inputs have been
signed: every field except the inputs' signature scripts is unchanged,
the cache is valid for the starting transaction, and the first `k`
signature scripts have their final value. -/
def SignInv (prims : CryptoPrims) (priv : List Nat)
    (tx0 : SerializableTransaction) (k : Nat)
    (st : SerializableTransaction × HashCache) : Prop :=
  st.1.version = tx0.version ∧ st.1.outputs = tx0.outputs ∧
  st.1.lockTime = tx0.lockTime ∧ st.1.subnetworkId = tx0.subnetworkId ∧
  st.1.utxos = tx0.utxos ∧ st.1.inputs.length = tx0.inputs.length ∧
  st.1.inputs.map hashOutpointBytes = tx0.inputs.map hashOutpointBytes ∧
  st.1.inputs.map (fun i => i.sequence) = tx0.inputs.map (fun i => i.sequence) ∧
  validCache prims tx0 st.2 ∧
  ∀ j, j < k → (st.1.inputs.getD j default).signatureScript =
    bytesToHex ((65 :: prims.schnorrSign
      (calculateSigHashNaive prims tx0 SIGHASH_ALL j) priv
        ++ [SIGHASH_ALL]).map (· % 256))

theorem signStep_inv (prims : CryptoPrims) (priv : List Nat)
    (tx0 : SerializableTransaction) (k : Nat)
    (st : SerializableTransaction × HashCache)
    (hinv : SignInv prims priv tx0 k st) (hk : k < tx0.inputs.length) :
    SignInv prims priv tx0 (k + 1) (signStep prims priv st k) := by
  unfold SignInv at hinv
  obtain ⟨hver, houts, hlock, hsub, hutxos, hlen, hop, hseq, hcache, hscripts⟩ :=
    hinv
  have hPrev := previousOutputsHashRaw_congr prims hop
  have hSeqR := sequencesHashRaw_congr prims hseq
  have hSig := sigOpCountsHashRaw_congr prims hlen
  have hOut := outputsHashRaw_congr prims houts
  have hcache1 : validCache prims st.1 st.2 :=
    validCache_congr prims hPrev.symm hSeqR.symm hSig.symm hOut.symm hcache
  obtain ⟨hval, hc2⟩ := calculateSigHash_spec prims st.1 SIGHASH_ALL k hcache1
  have hk1 : k < st.1.inputs.length := by rw [hlen]; exact hk
  have hnaive : calculateSigHashNaive prims st.1 SIGHASH_ALL k =
      calculateSigHashNaive prims tx0 SIGHASH_ALL k :=
    calculateSigHashNaive_congr prims hver houts hlock hutxos hlen hop hseq
      SIGHASH_ALL k hk1
  have hc2' : validCache prims tx0 (calculateSigHash prims st.1 SIGHASH_ALL k st.2).2 :=
    validCache_congr prims hPrev hSeqR hSig hOut hc2
  unfold SignInv
  simp only [signStep]
  set S := bytesToHex ((65 :: prims.schnorrSign
    (calculateSigHash prims st.1 SIGHASH_ALL k st.2).1 priv
      ++ [SIGHASH_ALL]).map (· % 256)) with hS
  refine ⟨hver, houts, hlock, hsub, hutxos, ?_, ?_, ?_, hc2', ?_⟩
  · rw [List.length_set]; exact hlen
  · exact (map_set_proj hashOutpointBytes
      (fun i => { i with signatureScript := S })
      (fun _ => rfl) default st.1.inputs k).trans hop
  · exact (map_set_proj (fun i => i.sequence)
      (fun i => { i with signatureScript := S })
      (fun _ => rfl) default st.1.inputs k).trans hseq
  · intro j hj
    by_cases hjk : j = k
    · subst hjk
      rw [getD_set_eq default st.1.inputs j _ hk1]
      show S = _
      rw [hS, hval, hnaive]
    · rw [getD_set_ne default st.1.inputs k j _ hjk]
      exact hscripts j (by omega)

theorem signFold_inv (prims : CryptoPrims) (priv : List Nat)
    (tx0 : SerializableTransaction) :
    ∀ k, k ≤ tx0.inputs.length →
      SignInv prims priv tx0 k
        ((List.range k).foldl (signStep prims priv) (tx0, emptyHashCache)) := by
  intro k
  induction k with
  | zero =>
    intro _
    unfold SignInv
    exact ⟨rfl, rfl, rfl, rfl, rfl, rfl, rfl, rfl, validCache_empty prims tx0,
      fun j hj => absurd hj (by omega)⟩
  | succ k ih =>
    intro hk1
    rw [List.range_succ, List.foldl_append]
    exact signStep_inv prims priv tx0 k _ (ih (by omega)) (by omega)

/-- Summary of the signing loop: all fields except signature scripts
unchanged, and every input's signature script set to
`hex(0x41 ‖ sign(sighash) ‖ 0x01)`. -/
theorem signAll_spec (prims : CryptoPrims) (priv : List Nat)
    (tx0 : SerializableTransaction) :
    (signAll prims priv tx0).1.version = tx0.version ∧
    (signAll prims priv tx0).1.outputs = tx0.outputs ∧
    (signAll prims priv tx0).1.lockTime = tx0.lockTime ∧
    (signAll prims priv tx0).1.subnetworkId = tx0.subnetworkId ∧
    (signAll prims priv tx0).1.inputs.length = tx0.inputs.length ∧
    ∀ j, j < tx0.inputs.length →
      ((signAll prims priv tx0).1.inputs.getD j default).signatureScript =
        bytesToHex ((65 :: prims.schnorrSign
          (calculateSigHashNaive prims tx0 SIGHASH_ALL j) priv
            ++ [SIGHASH_ALL]).map (· % 256)) := by
  have h := signFold_inv prims priv tx0 tx0.inputs.length le_rfl
  unfold SignInv at h
  obtain ⟨hver, houts, hlock, hsub, _, hlen, _, _, _, hscripts⟩ := h
  exact ⟨hver, houts, hlock, hsub, hlen, hscripts⟩

theorem bytesToHex_length : ∀ l : List Nat, (bytesToHex l).length = 2 * l.length := by
  intro l
  induction l with
  | nil => rfl
  | cons b bs ih => simp [bytesToHex] at ih ⊢; omega

/-! ### Characterizations of the resolution loops -/

theorem resolveInputs_ok {prefixes : List (List Nat)} :
    ∀ {inputs : List TransactionSigningInput}
      {r : List SerializableInput × List SigningUtxo × Int},
      resolveInputs prefixes inputs = .ok r →
      r.1 = inputs.map (fun i =>
        (⟨⟨i.txId, i.vOut⟩, [], 0, 1⟩ : SerializableInput)) ∧
      r.2.1.map (fun u => u.amount) = inputs.map (fun i => i.amount) ∧
      r.2.2 = (inputs.map fun i => i.amount).sum := by
  intro inputs
  induction inputs with
  | nil =>
    intro r h
    cases Except.ok.inj h
    exact ⟨rfl, rfl, rfl⟩
  | cons i rest ih =>
    intro r h
    simp only [resolveInputs] at h
    cases hsc : addressToScriptPublicKey i.address prefixes with
    | error e => rw [hsc] at h; exact Except.noConfusion h
    | ok script =>
      rw [hsc] at h
      cases hr : resolveInputs prefixes rest with
      | error e => rw [hr] at h; exact Except.noConfusion h
      | ok tr =>
        obtain ⟨ins', utxos', total'⟩ := tr
        rw [hr] at h
        obtain ⟨hA, hB, hC⟩ := ih hr
        replace hA : ins' = rest.map (fun i =>
          (⟨⟨i.txId, i.vOut⟩, [], 0, 1⟩ : SerializableInput)) := hA
        replace hB : utxos'.map (fun u => u.amount) =
          rest.map (fun i => i.amount) := hB
        replace hC : total' = (rest.map fun i => i.amount).sum := hC
        cases Except.ok.inj h
        refine ⟨?_, ?_, ?_⟩
        · show _ :: _ = _ :: _
          rw [hA]
        · show _ :: _ = _ :: _
          rw [hB]
        · show i.amount + total' = _
          rw [List.map_cons, List.sum_cons, hC]

theorem resolveInputs_ok_of {prefixes : List (List Nat)} :
    ∀ {inputs : List TransactionSigningInput},
      (∀ i ∈ inputs, ∃ s,
        addressToScriptPublicKey i.address prefixes = .ok s) →
      ∃ r, resolveInputs prefixes inputs = .ok r := by
  intro inputs
  induction inputs with
  | nil => intro _; exact ⟨([], [], 0), rfl⟩
  | cons i rest ih =>
    intro h
    obtain ⟨s, hs⟩ := h i (List.mem_cons_self i rest)
    obtain ⟨r, hr⟩ := ih (fun x hx => h x (List.mem_cons_of_mem i hx))
    obtain ⟨ins', utxos', total'⟩ := r
    exact ⟨(⟨⟨i.txId, i.vOut⟩, [], 0, 1⟩ :: ins',
      ⟨s, i.amount⟩ :: utxos', i.amount + total'),
      by simp only [resolveInputs]; rw [hs, hr]⟩

theorem resolveOutputs_ok {prefixes : List (List Nat)} :
    ∀ {outputs : List TransactionSigningOutput}
      {r : List SerializableOutput × Int},
      resolveOutputs prefixes outputs = .ok r →
      r.1.map (fun o => o.amount) = outputs.map (fun o => o.amount) ∧
      (∀ o ∈ outputs, 0 < o.amount) ∧
      r.2 = (outputs.map fun o => o.amount).sum ∧
      (∀ o ∈ r.1, o.scriptPublicKey.version = 0) := by
  intro outputs
  induction outputs with
  | nil =>
    intro r h
    cases Except.ok.inj h
    exact ⟨rfl, fun o ho => absurd ho (List.not_mem_nil o), rfl,
      fun o ho => absurd ho (List.not_mem_nil o)⟩
  | cons o rest ih =>
    intro r h
    simp only [resolveOutputs] at h
    by_cases hle : o.amount ≤ 0
    · rw [if_pos hle] at h; exact Except.noConfusion h
    · rw [if_neg hle] at h
      cases hsc : addressToScriptPublicKey o.address prefixes with
      | error e => rw [hsc] at h; exact Except.noConfusion h
      | ok script =>
        rw [hsc] at h
        cases hr : resolveOutputs prefixes rest with
        | error e => rw [hr] at h; exact Except.noConfusion h
        | ok tr =>
          obtain ⟨outs', total'⟩ := tr
          rw [hr] at h
          obtain ⟨hA, hP, hC, hV⟩ := ih hr
          replace hA : outs'.map (fun o => o.amount) =
            rest.map (fun o => o.amount) := hA
          replace hC : total' = (rest.map fun o => o.amount).sum := hC
          replace hV : ∀ x ∈ outs', x.scriptPublicKey.version = 0 := hV
          cases Except.ok.inj h
          refine ⟨?_, ?_, ?_, ?_⟩
          · show _ :: _ = _ :: _
            rw [hA]
          · intro x hx
            rcases List.mem_cons.mp hx with hx | hx
            · subst hx; omega
            · exact hP x hx
          · show o.amount + total' = _
            rw [List.map_cons, List.sum_cons, hC]
          · intro x hx
            rcases List.mem_cons.mp hx with hx | hx
            · subst hx; rfl
            · exact hV x hx

theorem resolveOutputs_ok_of {prefixes : List (List Nat)} :
    ∀ {outputs : List TransactionSigningOutput},
      (∀ o ∈ outputs, 0 < o.amount ∧ ∃ s,
        addressToScriptPublicKey o.address prefixes = .ok s) →
      ∃ r, resolveOutputs prefixes outputs = .ok r := by
  intro outputs
  induction outputs with
  | nil => intro _; exact ⟨([], 0), rfl⟩
  | cons o rest ih =>
    intro h
    obtain ⟨hpos, s, hs⟩ := h o (List.mem_cons_self o rest)
    obtain ⟨r, hr⟩ := ih (fun x hx => h x (List.mem_cons_of_mem o hx))
    obtain ⟨outs', total'⟩ := r
    exact ⟨(⟨o.amount, ⟨0, bytesToHex s⟩⟩ :: outs', o.amount + total'),
      by simp only [resolveOutputs]; rw [if_neg (not_le.mpr hpos), hs, hr]⟩

theorem resolveOutputs_nonpositive {prefixes : List (List Nat)} :
    ∀ (pre : List TransactionSigningOutput)
      (bad : TransactionSigningOutput) (rest : List TransactionSigningOutput),
      (∀ o ∈ pre, 0 < o.amount ∧ ∃ s,
        addressToScriptPublicKey o.address prefixes = .ok s) →
      bad.amount ≤ 0 →
      resolveOutputs prefixes (pre ++ bad :: rest) =
        .error .nonPositiveOutputAmount := by
  intro pre
  induction pre with
  | nil =>
    intro bad rest _ hbad
    simp only [List.nil_append, resolveOutputs]
    rw [if_pos hbad]
  | cons o os ih =>
    intro bad rest hpre hbad
    obtain ⟨hpos, s, hs⟩ := hpre o (List.mem_cons_self o os)
    simp only [List.cons_append, resolveOutputs, List.append_eq]
    rw [if_neg (not_le.mpr hpos), hs,
      ih bad rest (fun x hx => hpre x (List.mem_cons_of_mem o hx)) hbad]

/-! ### Decimal strings round-trip -/

/-- Reading a decimal string back to a number (spec-side inverse of
`natDec`). -/
def parseDec (ds : List Nat) : Nat :=
  ds.foldl (fun a d => 10 * a + (d - 48)) 0

theorem parseDec_append (xs : List Nat) (d : Nat) :
    parseDec (xs ++ [d]) = 10 * parseDec xs + (d - 48) := by
  unfold parseDec
  rw [List.foldl_append]
  simp only [List.foldl_cons, List.foldl_nil]

theorem parseDec_natDecA : ∀ fuel n, n < fuel → parseDec (natDecA fuel n) = n := by
  intro fuel
  induction fuel with
  | zero => intro n h; exact absurd h (Nat.not_lt_zero n)
  | succ fuel ih =>
    intro n h
    by_cases h10 : n < 10
    · simp only [natDecA, if_pos h10, parseDec, List.foldl_cons, List.foldl_nil]
      omega
    · simp only [natDecA, if_neg h10]
      rw [parseDec_append, ih (n / 10) (by omega)]
      omega

theorem parseDec_natDec (n : Nat) : parseDec (natDec n) = n :=
  parseDec_natDecA (n + 1) n (Nat.lt_succ_self n)

theorem parseDec_intDec {i : Int} (h : 0 ≤ i) :
    (parseDec (intDec i) : Int) = i := by
  unfold intDec
  rw [if_neg (by omega), parseDec_natDec]
  exact Int.toNat_of_nonneg h

theorem sum_parse_toPayload (outs : List SerializableOutput)
    (h : ∀ o ∈ outs, 0 ≤ o.amount) :
    ((outs.map fun o =>
        (⟨intDec o.amount, o.scriptPublicKey⟩ : PayloadOutput)).map
      fun p => (parseDec p.amount : Int)).sum =
      (outs.map fun o => o.amount).sum := by
  induction outs with
  | nil => rfl
  | cons o os ih =>
    simp only [List.map_cons, List.sum_cons]
    rw [ih (fun x hx => h x (List.mem_cons_of_mem o hx)),
      parseDec_intDec (h o (List.mem_cons_self o os))]

/-- Characterization of every successful `buildSignedTransaction` run:
all validations passed, both resolution loops succeeded, the change is
non-negative, and the payload is the signed transaction with or without
an appended change output according to the dust threshold. -/
theorem build_ok_char (prims : CryptoPrims) (params : TransactionSigningParams)
    {payload : SignedTransactionPayload}
    (h : buildSignedTransaction prims params = .ok payload) :
    prims.isValidPrivateKey params.privateKey = true ∧
    params.inputs ≠ [] ∧ params.outputs ≠ [] ∧ ¬ params.fee < 0 ∧
    ∃ txInputs utxos totalInput txOutputs totalOutput,
      resolveInputs params.addressPrefixes params.inputs =
        .ok (txInputs, utxos, totalInput) ∧
      resolveOutputs params.addressPrefixes params.outputs =
        .ok (txOutputs, totalOutput) ∧
      0 ≤ totalInput - totalOutput - params.fee ∧
      ((params.dustThreshold.getD 546 ≤ totalInput - totalOutput - params.fee ∧
        ∃ cscript,
          addressToScriptPublicKey params.changeAddress params.addressPrefixes =
            .ok cscript ∧
          payload = toPayload (signAll prims params.privateKey
            ⟨0, txInputs, txOutputs ++
              [⟨totalInput - totalOutput - params.fee, ⟨0, bytesToHex cscript⟩⟩],
              0, DEFAULT_SUBNETWORK_ID, utxos⟩).1) ∨
       (totalInput - totalOutput - params.fee < params.dustThreshold.getD 546 ∧
        payload = toPayload (signAll prims params.privateKey
          ⟨0, txInputs, txOutputs, 0, DEFAULT_SUBNETWORK_ID, utxos⟩).1)) := by
  simp only [buildSignedTransaction] at h
  split at h
  · rename_i hpk
    split at h
    · exact Except.noConfusion h
    · rename_i hin
      split at h
      · exact Except.noConfusion h
      · rename_i hout
        split at h
        · exact Except.noConfusion h
        · rename_i hfee
          split at h
          · exact Except.noConfusion h
          · rename_i txInputs utxos totalInput hri
            split at h
            · exact Except.noConfusion h
            · rename_i txOutputs totalOutput hro
              split at h
              · exact Except.noConfusion h
              · rename_i hneg
                split at h
                · rename_i hdust
                  split at h
                  · exact Except.noConfusion h
                  · rename_i cscript hca
                    exact ⟨hpk, hin, hout, hfee, txInputs, utxos,
                      totalInput, txOutputs, totalOutput, hri, hro,
                      by omega,
                      .inl ⟨hdust, cscript, hca, (Except.ok.inj h).symm⟩⟩
                · rename_i hdust
                  exact ⟨hpk, hin, hout, hfee, txInputs, utxos,
                    totalInput, txOutputs, totalOutput, hri, hro,
                    by omega, .inr ⟨by omega, (Except.ok.inj h).symm⟩⟩
  · exact Except.noConfusion h

/-- Once both resolution loops have succeeded,
`buildSignedTransaction` is the balance check followed by the dust
branch. -/
theorem build_resolved_eq (prims : CryptoPrims)
    (params : TransactionSigningParams) (txInputs : List SerializableInput)
    (utxos : List SigningUtxo) (totalInput : Int)
    (txOutputs : List SerializableOutput) (totalOutput : Int)
    (hpk : prims.isValidPrivateKey params.privateKey = true)
    (hin : params.inputs ≠ []) (hout : params.outputs ≠ [])
    (hfee : ¬ params.fee < 0)
    (hri : resolveInputs params.addressPrefixes params.inputs =
      .ok (txInputs, utxos, totalInput))
    (hro : resolveOutputs params.addressPrefixes params.outputs =
      .ok (txOutputs, totalOutput)) :
    buildSignedTransaction prims params =
      (if totalInput - totalOutput - params.fee < 0 then
        .error .insufficientBalance
       else if params.dustThreshold.getD 546 ≤
          totalInput - totalOutput - params.fee then
        match addressToScriptPublicKey params.changeAddress
            params.addressPrefixes with
        | .error e => .error (.addr e)
        | .ok cscript =>
          .ok (toPayload (signAll prims params.privateKey
            ⟨0, txInputs, txOutputs ++
              [⟨totalInput - totalOutput - params.fee, ⟨0, bytesToHex cscript⟩⟩],
              0, DEFAULT_SUBNETWORK_ID, utxos⟩).1)
       else
        .ok (toPayload (signAll prims params.privateKey
          ⟨0, txInputs, txOutputs, 0, DEFAULT_SUBNETWORK_ID, utxos⟩).1)) := by
  simp only [buildSignedTransaction]
  rw [if_pos hpk, if_neg hin, if_neg hout, if_neg hfee, hri, hro]

theorem map_mod256_id : ∀ l : List Nat, (∀ b ∈ l, b < 256) →
    l.map (· % 256) = l := by
  intro l
  induction l with
  | nil => intro _; rfl
  | cons b bs ih =>
    intro h
    show b % 256 :: bs.map (· % 256) = b :: bs
    rw [Nat.mod_eq_of_lt (h b (List.mem_cons_self b bs)),
      ih (fun x hx => h x (List.mem_cons_of_mem b hx))]

/-- C2 (corrected).  Fee conservation holds only up to the dust
leftover: for every successful `buildSignedTransaction` call there is a
`leftover` (the change when it falls below the dust threshold, zero
otherwise) with `sum(input amounts) = sum(payload output amounts) + fee
+ leftover`; the spec's exact equation fails whenever
`0 < leftover`. -/
theorem c2_fee_conservation (prims : CryptoPrims)
    (params : TransactionSigningParams) (payload : SignedTransactionPayload)
    (h : buildSignedTransaction prims params = .ok payload) :
    ∃ leftover : Int, 0 ≤ leftover ∧
      (leftover = 0 ∨ leftover < params.dustThreshold.getD 546) ∧
      (params.inputs.map fun i => i.amount).sum =
        (payload.transaction.outputs.map fun o => (parseDec o.amount : Int)).sum +
          params.fee + leftover := by
  obtain ⟨hpk, hin, hout, hfee, txInputs, utxos, totalInput, txOutputs,
    totalOutput, hri, hro, hchg, hcase⟩ := build_ok_char prims params h
  obtain ⟨_, _, hTI⟩ := resolveInputs_ok hri
  obtain ⟨hAmts, hPos, hTO, _⟩ := resolveOutputs_ok hro
  replace hTI : totalInput = (params.inputs.map fun i => i.amount).sum := hTI
  replace hTO : totalOutput = (params.outputs.map fun o => o.amount).sum := hTO
  replace hAmts : txOutputs.map (fun o => o.amount) =
    params.outputs.map (fun o => o.amount) := hAmts
  have hPosT : ∀ o ∈ txOutputs, (0 : Int) ≤ o.amount := by
    intro o ho
    have hmem : o.amount ∈ txOutputs.map (fun o => o.amount) :=
      List.mem_map_of_mem _ ho
    rw [hAmts] at hmem
    obtain ⟨x, hx, hxe⟩ := List.mem_map.mp hmem
    have := hPos x hx
    omega
  have hsumT : (txOutputs.map (fun o => o.amount)).sum =
      (params.outputs.map (fun o => o.amount)).sum := by rw [hAmts]
  rcases hcase with ⟨hdust, cscript, hca, hpay⟩ | ⟨hdust, hpay⟩
  · refine ⟨0, le_refl 0, Or.inl rfl, ?_⟩
    subst hpay
    have houts := (signAll_spec prims params.privateKey
      ⟨0, txInputs, txOutputs ++
        [⟨totalInput - totalOutput - params.fee, ⟨0, bytesToHex cscript⟩⟩],
        0, DEFAULT_SUBNETWORK_ID, utxos⟩).2.1
    simp only [toPayload]
    rw [houts]
    have hnn : ∀ o ∈ txOutputs ++
        [(⟨totalInput - totalOutput - params.fee,
          ⟨0, bytesToHex cscript⟩⟩ : SerializableOutput)], (0 : Int) ≤ o.amount := by
      intro o ho
      rcases List.mem_append.mp ho with ho | ho
      · exact hPosT o ho
      · rcases List.mem_singleton.mp ho with rfl
        exact hchg
    rw [sum_parse_toPayload _ hnn, List.map_append, List.sum_append, hsumT]
    simp only [List.map_cons, List.map_nil, List.sum_cons, List.sum_nil]
    rw [← hTI, ← hTO]
    ring
  · refine ⟨totalInput - totalOutput - params.fee, hchg, Or.inr hdust, ?_⟩
    subst hpay
    have houts := (signAll_spec prims params.privateKey
      ⟨0, txInputs, txOutputs, 0, DEFAULT_SUBNETWORK_ID, utxos⟩).2.1
    simp only [toPayload]
    rw [houts, sum_parse_toPayload _ hPosT, hsumT, ← hTI, ← hTO]
    ring

/-- C3. Change-output rule: in every successful call, with
`change = totalInput - totalOutput - fee`, the change is non-negative
and: if `change >= dustThreshold` (default 546) exactly one extra
output with amount `change`, the change address's script, version 0, is
appended after the requested outputs (payload has `n + 1` outputs);
otherwise no output is appended and the payload has exactly as many
outputs as requested. -/
theorem c3_change_output_rule (prims : CryptoPrims)
    (params : TransactionSigningParams) (payload : SignedTransactionPayload)
    (h : buildSignedTransaction prims params = .ok payload) :
    ∃ txInputs utxos totalInput txOutputs totalOutput,
      resolveInputs params.addressPrefixes params.inputs =
        .ok (txInputs, utxos, totalInput) ∧
      resolveOutputs params.addressPrefixes params.outputs =
        .ok (txOutputs, totalOutput) ∧
      txOutputs.length = params.outputs.length ∧
      0 ≤ totalInput - totalOutput - params.fee ∧
      (if params.dustThreshold.getD 546 ≤ totalInput - totalOutput - params.fee
       then
        ∃ cscript,
          addressToScriptPublicKey params.changeAddress params.addressPrefixes =
            .ok cscript ∧
          payload.transaction.outputs =
            txOutputs.map (fun o =>
              (⟨intDec o.amount, o.scriptPublicKey⟩ : PayloadOutput)) ++
              [⟨intDec (totalInput - totalOutput - params.fee),
                ⟨0, bytesToHex cscript⟩⟩] ∧
          payload.transaction.outputs.length = params.outputs.length + 1
       else
        payload.transaction.outputs =
          txOutputs.map (fun o =>
            (⟨intDec o.amount, o.scriptPublicKey⟩ : PayloadOutput)) ∧
        payload.transaction.outputs.length = params.outputs.length) := by
  obtain ⟨hpk, hin, hout, hfee, txInputs, utxos, totalInput, txOutputs,
    totalOutput, hri, hro, hchg, hcase⟩ := build_ok_char prims params h
  obtain ⟨hAmts, _, _, _⟩ := resolveOutputs_ok hro
  replace hAmts : txOutputs.map (fun o => o.amount) =
    params.outputs.map (fun o => o.amount) := hAmts
  have hlen : txOutputs.length = params.outputs.length := by
    have := congrArg List.length hAmts
    simpa using this
  refine ⟨txInputs, utxos, totalInput, txOutputs, totalOutput, hri, hro,
    hlen, hchg, ?_⟩
  rcases hcase with ⟨hdust, cscript, hca, hpay⟩ | ⟨hdust, hpay⟩
  · rw [if_pos hdust]
    subst hpay
    have houts := (signAll_spec prims params.privateKey
      ⟨0, txInputs, txOutputs ++
        [⟨totalInput - totalOutput - params.fee, ⟨0, bytesToHex cscript⟩⟩],
        0, DEFAULT_SUBNETWORK_ID, utxos⟩).2.1
    refine ⟨cscript, hca, ?_, ?_⟩
    · simp only [toPayload]
      rw [houts, List.map_append]
      rfl
    · simp only [toPayload]
      rw [houts, List.length_map, List.length_append, hlen]
      rfl
  · rw [if_neg (not_le.mpr hdust)]
    subst hpay
    have houts := (signAll_spec prims params.privateKey
      ⟨0, txInputs, txOutputs, 0, DEFAULT_SUBNETWORK_ID, utxos⟩).2.1
    refine ⟨?_, ?_⟩
    · simp only [toPayload]
      rw [houts]
    · simp only [toPayload]
      rw [houts, List.length_map, hlen]

/-- C4. Insufficient balance: when the earlier validations pass, every
address resolves, but `totalInput < totalOutput + fee`, the call fails
with `InsufficientBalance` and returns no payload. -/
theorem c4_insufficient_balance (prims : CryptoPrims)
    (params : TransactionSigningParams)
    (hpk : prims.isValidPrivateKey params.privateKey = true)
    (hin : params.inputs ≠ []) (hout : params.outputs ≠ [])
    (hfee : 0 ≤ params.fee)
    (hri : ∃ r, resolveInputs params.addressPrefixes params.inputs = .ok r)
    (hro : ∃ r, resolveOutputs params.addressPrefixes params.outputs = .ok r)
    (hlt : (params.inputs.map fun i => i.amount).sum <
      (params.outputs.map fun o => o.amount).sum + params.fee) :
    buildSignedTransaction prims params = .error .insufficientBalance ∧
    ∀ p, buildSignedTransaction prims params ≠ .ok p := by
  obtain ⟨⟨txInputs, utxos, totalInput⟩, hri⟩ := hri
  obtain ⟨⟨txOutputs, totalOutput⟩, hro⟩ := hro
  obtain ⟨_, _, hTI⟩ := resolveInputs_ok hri
  obtain ⟨_, _, hTO, _⟩ := resolveOutputs_ok hro
  replace hTI : totalInput = (params.inputs.map fun i => i.amount).sum := hTI
  replace hTO : totalOutput = (params.outputs.map fun o => o.amount).sum := hTO
  have hneg : totalInput - totalOutput - params.fee < 0 := by
    rw [hTI, hTO]
    linarith
  have hmain : buildSignedTransaction prims params =
      .error .insufficientBalance := by
    rw [build_resolved_eq prims params txInputs utxos totalInput txOutputs
      totalOutput hpk hin hout (not_lt.mpr hfee) hri hro, if_pos hneg]
  exact ⟨hmain, fun p hp => Except.noConfusion (hmain.symm.trans hp)⟩

/-- C6. Signature-script format: in every payload, every input's
signature script is the hex of exactly 66 bytes
`0x41 ‖ 64-byte Schnorr signature over that input's sighash ‖ 0x01`
(132 hex characters); the hash type is always `SIGHASH_ALL = 1` and no
input is skipped.  Quantified over any signing primitive that returns
64-byte signatures. -/
theorem c6_aux (prims : CryptoPrims) (priv : List Nat)
    (hsig : ∀ msg key, (prims.schnorrSign msg key).length = 64 ∧
      ∀ b ∈ prims.schnorrSign msg key, b < 256)
    (tx0 : SerializableTransaction) (j : Nat) (hj : j < tx0.inputs.length) :
    ((signAll prims priv tx0).1.inputs.getD j default).signatureScript =
      bytesToHex (65 :: prims.schnorrSign
        (calculateSigHashNaive prims tx0 SIGHASH_ALL j) priv ++ [SIGHASH_ALL]) ∧
    ((signAll prims priv tx0).1.inputs.getD j default).signatureScript.length =
      132 := by
  obtain ⟨_, _, _, _, _, hscripts⟩ := signAll_spec prims priv tx0
  have hsc := hscripts j hj
  have hbytes : ∀ b ∈ 65 :: prims.schnorrSign
      (calculateSigHashNaive prims tx0 SIGHASH_ALL j) priv ++ [SIGHASH_ALL],
      b < 256 := by
    intro b hb
    rcases List.mem_append.mp hb with hb | hb
    · rcases List.mem_cons.mp hb with hb | hb
      · omega
      · exact (hsig (calculateSigHashNaive prims tx0 SIGHASH_ALL j) priv).2 b hb
    · rcases List.mem_singleton.mp hb with rfl
      decide
  rw [map_mod256_id _ hbytes] at hsc
  refine ⟨hsc, ?_⟩
  rw [hsc, bytesToHex_length]
  have h64 := (hsig (calculateSigHashNaive prims tx0 SIGHASH_ALL j) priv).1
  simp [h64]

theorem c6_signature_script_format (prims : CryptoPrims)
    (params : TransactionSigningParams) (payload : SignedTransactionPayload)
    (hsig : ∀ msg key, (prims.schnorrSign msg key).length = 64 ∧
      ∀ b ∈ prims.schnorrSign msg key, b < 256)
    (h : buildSignedTransaction prims params = .ok payload) :
    SIGHASH_ALL = 1 ∧
    payload.transaction.inputs.length = params.inputs.length ∧
    ∃ tx0 : SerializableTransaction,
      tx0.inputs.length = params.inputs.length ∧
      ∀ j, j < params.inputs.length →
        (payload.transaction.inputs.getD j default).signatureScript =
          bytesToHex (65 :: prims.schnorrSign
            (calculateSigHashNaive prims tx0 SIGHASH_ALL j) params.privateKey
              ++ [SIGHASH_ALL]) ∧
        ((payload.transaction.inputs.getD j default).signatureScript).length =
          132 := by
  obtain ⟨hpk, hin, hout, hfee, txInputs, utxos, totalInput, txOutputs,
    totalOutput, hri, hro, hchg, hcase⟩ := build_ok_char prims params h
  obtain ⟨hIns, _, _⟩ := resolveInputs_ok hri
  replace hIns : txInputs = params.inputs.map (fun i =>
    (⟨⟨i.txId, i.vOut⟩, [], 0, 1⟩ : SerializableInput)) := hIns
  have hInsLen : txInputs.length = params.inputs.length := by
    rw [hIns, List.length_map]
  rcases hcase with ⟨hdust, cscript, hca, hpay⟩ | ⟨hdust, hpay⟩
  · subst hpay
    have hlen := (signAll_spec prims params.privateKey
      ⟨0, txInputs, txOutputs ++
        [⟨totalInput - totalOutput - params.fee, ⟨0, bytesToHex cscript⟩⟩],
        0, DEFAULT_SUBNETWORK_ID, utxos⟩).2.2.2.2.1
    refine ⟨rfl, hlen.trans hInsLen,
      ⟨0, txInputs, txOutputs ++
        [⟨totalInput - totalOutput - params.fee, ⟨0, bytesToHex cscript⟩⟩],
        0, DEFAULT_SUBNETWORK_ID, utxos⟩, hInsLen, fun j hj => ?_⟩
    exact c6_aux prims params.privateKey hsig _ j
      (show j < txInputs.length by rw [hInsLen]; exact hj)
  · subst hpay
    have hlen := (signAll_spec prims params.privateKey
      ⟨0, txInputs, txOutputs, 0, DEFAULT_SUBNETWORK_ID, utxos⟩).2.2.2.2.1
    refine ⟨rfl, hlen.trans hInsLen,
      ⟨0, txInputs, txOutputs, 0, DEFAULT_SUBNETWORK_ID, utxos⟩, hInsLen,
      fun j hj => ?_⟩
    exact c6_aux prims params.privateKey hsig _ j
      (show j < txInputs.length by rw [hInsLen]; exact hj)

/-- C9 (corrected).  The output-amount check does fire with
`NonPositiveOutputAmount` for the first non-positive requested output —
but only after all input addresses have been resolved: input
resolution precedes output validation, so it is not fail-fast in the
spec's sense. -/
theorem c9_output_validation_after_inputs (prims : CryptoPrims)
    (params : TransactionSigningParams)
    (pre : List TransactionSigningOutput) (bad : TransactionSigningOutput)
    (rest : List TransactionSigningOutput)
    (hpk : prims.isValidPrivateKey params.privateKey = true)
    (hin : params.inputs ≠ []) (hfee : ¬ params.fee < 0)
    (hri : ∃ r, resolveInputs params.addressPrefixes params.inputs = .ok r)
    (hsplit : params.outputs = pre ++ bad :: rest)
    (hpre : ∀ o ∈ pre, 0 < o.amount ∧ ∃ s,
      addressToScriptPublicKey o.address params.addressPrefixes = .ok s)
    (hbad : bad.amount ≤ 0) :
    buildSignedTransaction prims params = .error .nonPositiveOutputAmount := by
  obtain ⟨⟨txInputs, utxos, totalInput⟩, hri⟩ := hri
  have hout : params.outputs ≠ [] := by
    rw [hsplit]
    simp
  have hro : resolveOutputs params.addressPrefixes params.outputs =
      .error .nonPositiveOutputAmount := by
    rw [hsplit]
    exact resolveOutputs_nonpositive pre bad rest hpre hbad
  simp only [buildSignedTransaction]
  rw [if_pos hpk, if_neg hin, if_neg hout, if_neg hfee, hri, hro]

/-- Witness for C5 at a concrete transaction and the empty cache. -/
theorem c5_sighash_cache_transparent_witness :
    (calculateSigHash zeroPrims c5Tx 1 0 emptyHashCache).1 =
      (calculateSigHash zeroPrims c5Tx 1 0 emptyHashCache).1 ∧
    (calculateSigHash zeroPrims c5Tx 1 0 emptyHashCache).1 =
      calculateSigHashNaive zeroPrims c5Tx 1 0 ∧
    validCache zeroPrims c5Tx (calculateSigHash zeroPrims c5Tx 1 0 emptyHashCache).2 :=
  c5_sighash_cache_transparent zeroPrims c5Tx 1 0 (validCache_empty zeroPrims c5Tx)

/-! ### Concrete engine inputs for witnesses and counterexamples -/

/-- A 64-character transaction id ("000…0"). -/
def txId64 : List Nat := List.replicate 64 48

def emptyPayloadTx : SignedTransactionPayload := ⟨⟨0, [], [], [], []⟩, false⟩

/-- One 1000-unit input, one 999-unit output, zero fee: succeeds, and
the 1-unit change is below the dust threshold. -/
def c2wParams : TransactionSigningParams :=
  ⟨[⟨txId64, 0, sampleAddr, 1000⟩], [⟨sampleAddr, 999⟩], sampleAddr, 0, [1],
    [kaspaPrefixStr], none⟩

def c2wPayload : SignedTransactionPayload :=
  match buildSignedTransaction zeroPrims c2wParams with
  | .ok p => p
  | .error _ => emptyPayloadTx

/-- Witness for C2 at a concrete dust-leftover scenario. -/
theorem c2_fee_conservation_witness :
    ∃ leftover : Int, 0 ≤ leftover ∧
      (leftover = 0 ∨ leftover < c2wParams.dustThreshold.getD 546) ∧
      (c2wParams.inputs.map fun i => i.amount).sum =
        (c2wPayload.transaction.outputs.map fun o => (parseDec o.amount : Int)).sum +
          c2wParams.fee + leftover :=
  c2_fee_conservation zeroPrims c2wParams c2wPayload (by decide)

/-- Counterexample to C2 as stated: the call succeeds with
1000 = input ≠ 999 + 0 = outputs + fee (the 1-unit change is absorbed
silently). -/
theorem c2_counterexample :
    buildSignedTransaction zeroPrims c2wParams = .ok c2wPayload ∧
    ¬ ((c2wParams.inputs.map fun i => i.amount).sum =
      (c2wPayload.transaction.outputs.map fun o => (parseDec o.amount : Int)).sum +
        c2wParams.fee) := by
  exact ⟨by decide, by decide⟩

/-- 2000-unit input, 1000-unit output, zero fee: the 1000-unit change
is above the dust threshold, so a change output is appended. -/
def c3wParams : TransactionSigningParams :=
  ⟨[⟨txId64, 0, sampleAddr, 2000⟩], [⟨sampleAddr, 1000⟩], sampleAddr, 0, [1],
    [kaspaPrefixStr], none⟩

def c3wPayload : SignedTransactionPayload :=
  match buildSignedTransaction zeroPrims c3wParams with
  | .ok p => p
  | .error _ => emptyPayloadTx

/-- Witness for C3 at a concrete above-dust scenario. -/
theorem c3_change_output_rule_witness :
    ∃ txInputs utxos totalInput txOutputs totalOutput,
      resolveInputs c3wParams.addressPrefixes c3wParams.inputs =
        .ok (txInputs, utxos, totalInput) ∧
      resolveOutputs c3wParams.addressPrefixes c3wParams.outputs =
        .ok (txOutputs, totalOutput) ∧
      txOutputs.length = c3wParams.outputs.length ∧
      0 ≤ totalInput - totalOutput - c3wParams.fee ∧
      (if c3wParams.dustThreshold.getD 546 ≤
          totalInput - totalOutput - c3wParams.fee
       then
        ∃ cscript,
          addressToScriptPublicKey c3wParams.changeAddress
            c3wParams.addressPrefixes = .ok cscript ∧
          c3wPayload.transaction.outputs =
            txOutputs.map (fun o =>
              (⟨intDec o.amount, o.scriptPublicKey⟩ : PayloadOutput)) ++
              [⟨intDec (totalInput - totalOutput - c3wParams.fee),
                ⟨0, bytesToHex cscript⟩⟩] ∧
          c3wPayload.transaction.outputs.length = c3wParams.outputs.length + 1
       else
        c3wPayload.transaction.outputs =
          txOutputs.map (fun o =>
            (⟨intDec o.amount, o.scriptPublicKey⟩ : PayloadOutput)) ∧
        c3wPayload.transaction.outputs.length = c3wParams.outputs.length) :=
  c3_change_output_rule zeroPrims c3wParams c3wPayload (by decide)

/-- 100-unit input cannot cover a 1000-unit output. -/
def c4wParams : TransactionSigningParams :=
  ⟨[⟨txId64, 0, sampleAddr, 100⟩], [⟨sampleAddr, 1000⟩], sampleAddr, 0, [1],
    [kaspaPrefixStr], none⟩

/-- Witness for C4 at a concrete underfunded scenario. -/
theorem c4_insufficient_balance_witness :
    buildSignedTransaction zeroPrims c4wParams = .error .insufficientBalance :=
  (c4_insufficient_balance zeroPrims c4wParams (by decide) (by decide)
    (by decide) (by decide) ⟨_, rfl⟩ ⟨_, rfl⟩ (by decide)).1

/-- Witness for C6 at the concrete scenario of `c2wParams`, with the
dummy 64-byte signing primitive. -/
theorem c6_signature_script_format_witness :
    SIGHASH_ALL = 1 ∧
    c2wPayload.transaction.inputs.length = c2wParams.inputs.length ∧
    ∃ tx0 : SerializableTransaction,
      tx0.inputs.length = c2wParams.inputs.length ∧
      ∀ j, j < c2wParams.inputs.length →
        (c2wPayload.transaction.inputs.getD j default).signatureScript =
          bytesToHex (65 :: zeroPrims.schnorrSign
            (calculateSigHashNaive zeroPrims tx0 SIGHASH_ALL j)
              c2wParams.privateKey ++ [SIGHASH_ALL]) ∧
        ((c2wPayload.transaction.inputs.getD j default).signatureScript).length =
          132 :=
  c6_signature_script_format zeroPrims c2wParams c2wPayload
    (fun _ _ => ⟨rfl, fun b hb => by rw [List.eq_of_mem_replicate hb]; decide⟩)
    (by decide)

/-- A mixed-case (hence invalid) input address together with a
zero-amount output. -/
def c9xParams : TransactionSigningParams :=
  ⟨[⟨txId64, 0, [65, 98], 5⟩], [⟨[107], 0⟩], [107], 0, [1],
    [kaspaPrefixStr], none⟩

/-- Counterexample to C9 as stated: with a zero-amount output but an
unresolvable input address, the failure is the input-address error, not
`NonPositiveOutputAmount` — output validation is not fail-fast. -/
theorem c9_counterexample :
    (c9xParams.outputs.map fun o => o.amount) = [0] ∧
    buildSignedTransaction zeroPrims c9xParams = .error (.addr .mixedCase) ∧
    buildSignedTransaction zeroPrims c9xParams ≠
      .error .nonPositiveOutputAmount := by
  exact ⟨by decide, by decide, by decide⟩

/-- A resolvable input and a zero-amount output. -/
def c9wParams : TransactionSigningParams :=
  ⟨[⟨txId64, 0, sampleAddr, 5⟩], [⟨[107], 0⟩], [107], 0, [1],
    [kaspaPrefixStr], none⟩

/-- Witness for C9 (amended) at a concrete scenario. -/
theorem c9_output_validation_after_inputs_witness :
    buildSignedTransaction zeroPrims c9wParams =
      .error .nonPositiveOutputAmount :=
  c9_output_validation_after_inputs zeroPrims c9wParams [] ⟨[107], 0⟩ []
    (by decide) (by decide) (by decide) ⟨_, rfl⟩ rfl
    (fun o ho => absurd ho (List.not_mem_nil o)) (by decide)

/-- Two inputs, the first with amount 0; all other validations pass. -/
def c10Params : TransactionSigningParams :=
  ⟨[⟨txId64, 0, sampleAddr, 0⟩, ⟨txId64, 1, sampleAddr, 1500⟩],
    [⟨sampleAddr, 1000⟩], sampleAddr, 0, [1], [kaspaPrefixStr], none⟩

def c10Payload : SignedTransactionPayload :=
  match buildSignedTransaction zeroPrims c10Params with
  | .ok p => p
  | .error _ => emptyPayloadTx

/-- C10. Input amounts are never validated: a call whose first input
has amount 0 (with every other validation passing and a non-negative
change) succeeds and returns a payload — no error of the error taxonomy
is raised for non-positive input amounts. -/
theorem c10_input_amounts_not_validated :
    (c10Params.inputs.map fun i => i.amount) = [0, 1500] ∧
    buildSignedTransaction zeroPrims c10Params = .ok c10Payload := by
  exact ⟨by decide, by decide⟩

end KaspaWallet
